import Mathlib

/-!
Verification of the textTR repository's text-splitter, merger, translation
fallback chain, text protector and pagination helpers.

Strings are modelled as `List Char` (`Str`).  Python string operations used by
the code (`str.strip`, `str.replace`, `str.find`, slicing, `sorted`) are given
executable models below, and the repository's functions are translated on top
of them.
-/

namespace TextTR

/-- Python strings, modelled as lists of characters. -/
abbrev Str := List Char

/-- The whitespace characters stripped by Python's `str.strip()` (ASCII part;
the inputs handled in this development contain no exotic Unicode spaces). -/
def isPySpace (c : Char) : Bool :=
  c = ' ' || c = '\t' || c = '\n' || c = '\r' || c = '\x0b' || c = '\x0c'

/-- Model of Python `str.strip()`: remove leading and trailing whitespace. -/
def pyStrip (s : Str) : Str :=
  ((s.dropWhile isPySpace).reverse.dropWhile isPySpace).reverse

/-- Model of Python `str.rstrip("\n\r")` as used by `load_from_file`. -/
def rstripNL (s : Str) : Str :=
  (s.reverse.dropWhile (fun c => c = '\n' || c = '\r')).reverse

/-- `occursIn k s` holds when `k` appears as a contiguous substring of `s`
(Python's `k in s`). -/
def occursIn (k s : Str) : Prop := ∃ a b, s = a ++ k ++ b

/-- First occurrence of `k` in `s`, as Python `s.find(k)` would locate it:
returns the part before the occurrence and the part after it. -/
def splitFirst (k : Str) : Str → Option (Str × Str)
  | [] => if k.isEmpty then some ([], []) else none
  | c :: r =>
    if k.isPrefixOf (c :: r) then some ([], (c :: r).drop k.length)
    else
      match splitFirst k r with
      | none => none
      | some (a, b) => some (c :: a, b)

theorem isPrefixOf_spec {k s : Str} : k.isPrefixOf s = true ↔ ∃ t, s = k ++ t := by
  induction k generalizing s with
  | nil => simp [List.isPrefixOf]
  | cons a as ih =>
    cases s with
    | nil => simp [List.isPrefixOf]
    | cons b bs =>
      simp only [List.isPrefixOf, Bool.and_eq_true, beq_iff_eq, ih, List.cons_append,
        List.cons.injEq]
      constructor
      · rintro ⟨h1, t, h2⟩
        exact ⟨t, h1.symm, h2⟩
      · rintro ⟨t, h1, h2⟩
        exact ⟨h1.symm, t, h2⟩

theorem splitFirst_sound {k s a b : Str} (h : splitFirst k s = some (a, b)) :
    s = a ++ k ++ b := by
  induction s generalizing a b with
  | nil =>
    by_cases hk : k.isEmpty
    · simp [splitFirst, hk] at h
      rcases h with ⟨h1, h2⟩
      simp [List.isEmpty_iff] at hk
      subst hk
      subst h1
      subst h2
      rfl
    · simp [splitFirst, hk] at h
  | cons c r ih =>
    by_cases hp : k.isPrefixOf (c :: r)
    · simp only [splitFirst, hp, if_true, Option.some.injEq, Prod.mk.injEq] at h
      rcases h with ⟨h1, h2⟩
      rcases isPrefixOf_spec.mp hp with ⟨t, ht⟩
      have hlen : ((c :: r).drop k.length) = t := by
        rw [ht, List.drop_left]
      rw [← h1, List.nil_append, ht, ← h2, hlen]
    · simp only [splitFirst, hp, if_false] at h
      cases hsf : splitFirst k r with
      | none => rw [hsf] at h; simp at h
      | some p =>
        rcases p with ⟨a', b'⟩
        rw [hsf] at h
        injection h with h'
        injection h' with h1 h2
        subst h1
        subst h2
        have := ih hsf
        simp [this]

theorem splitFirst_none {k s : Str} (h : splitFirst k s = none) :
    ¬ occursIn k s := by
  induction s with
  | nil =>
    rintro ⟨a, b, hab⟩
    have ha : a = [] := by
      cases a with
      | nil => rfl
      | cons x xs => simp at hab
    have hk : k = [] := by
      subst ha
      cases k with
      | nil => rfl
      | cons x xs => simp at hab
    rw [splitFirst, hk] at h
    simp [List.isEmpty] at h
  | cons c r ih =>
    by_cases hp : k.isPrefixOf (c :: r)
    · simp [splitFirst, hp] at h
    · simp only [splitFirst, hp, if_false] at h
      cases hsf : splitFirst k r with
      | some p => rw [hsf] at h; rcases p with ⟨a, b⟩; simp at h
      | none =>
        have hnr := ih hsf
        rintro ⟨a, b, hab⟩
        cases a with
        | nil =>
          apply hp
          exact isPrefixOf_spec.mpr ⟨b, by simpa using hab⟩
        | cons x xs =>
          apply hnr
          have hab' : c = x ∧ r = xs ++ (k ++ b) := by simpa using hab
          exact ⟨xs, b, by simpa using hab'.2⟩

theorem occursIn_of_splitFirst {k s : Str} {p : Str × Str}
    (h : splitFirst k s = some p) : occursIn k s :=
  ⟨p.1, p.2, splitFirst_sound (by rw [h])⟩

instance occursIn_decidable (k s : Str) : Decidable (occursIn k s) :=
  match h : splitFirst k s with
  | none => isFalse (splitFirst_none h)
  | some _ => isTrue (occursIn_of_splitFirst h)

/-- Fuel-driven worker for `replaceAll`; the fuel only bounds the recursion
depth and `s.length + 1` is always sufficient. -/
def replaceAllGo (k v : Str) : Nat → Str → Str
  | 0, s => s
  | fuel + 1, s =>
    match splitFirst k s with
    | none => s
    | some (a, b) => a ++ v ++ replaceAllGo k v fuel b

/-- Model of Python `str.replace(k, v)` for a non-empty pattern `k`: replace
every non-overlapping occurrence, scanning left to right.  (The code only ever
replaces non-empty patterns, so the empty-pattern case is left as the
identity.) -/
def replaceAll (k v s : Str) : Str :=
  if k.isEmpty then s else replaceAllGo k v (s.length + 1) s

theorem replaceAllGo_of_not_occurs {k v : Str} (fuel : Nat) {s : Str}
    (h : ¬ occursIn k s) : replaceAllGo k v fuel s = s := by
  cases fuel with
  | zero => rfl
  | succ f =>
    rw [replaceAllGo]
    cases hsf : splitFirst k s with
    | none => rfl
    | some p => exact absurd (occursIn_of_splitFirst hsf) h

theorem replaceAll_of_not_occurs {k v s : Str} (h : ¬ occursIn k s) :
    replaceAll k v s = s := by
  rw [replaceAll]
  split
  · rfl
  · exact replaceAllGo_of_not_occurs _ h

/-! ### Decimal rendering of naturals (Python `str(n)` / `f"{n:03d}"`) -/

/-- Character for one decimal digit. -/
def digitCh (d : Nat) : Char := Char.ofNat (48 + d)

/-- Little-endian decimal digits of `n`; the fuel only bounds recursion depth
and `fuel = n` is always sufficient. -/
def natDigitsGo : Nat → Nat → List Nat
  | _, 0 => []
  | 0, _ + 1 => []
  | fuel + 1, n + 1 => ((n + 1) % 10) :: natDigitsGo fuel ((n + 1) / 10)

/-- Model of Python `str(n)` for a natural number: most-significant digit
first. -/
def natStr (n : Nat) : Str := ((natDigitsGo n n).map digitCh).reverse

theorem natDigitsGo_zero (f : Nat) : natDigitsGo f 0 = [] := by
  cases f <;> rfl

theorem natDigitsGo_fuel : ∀ f f' n, n ≤ f → n ≤ f' →
    natDigitsGo f n = natDigitsGo f' n := by
  intro f
  induction f using Nat.strong_induction_on with
  | _ f ih =>
    intro f' n hf hf'
    match f, f', n with
    | f, f', 0 =>
      rw [natDigitsGo_zero, natDigitsGo_zero]
    | f + 1, f' + 1, n + 1 =>
      rw [natDigitsGo, natDigitsGo]
      congr 1
      have hd : (n + 1) / 10 < n + 1 := Nat.div_lt_self (Nat.succ_pos n) (by norm_num)
      exact ih f (Nat.lt_succ_self f) f' ((n + 1) / 10) (by omega) (by omega)

/-- Reconstruction of the value from little-endian digits. -/
def valOfDigits : List Nat → Nat
  | [] => 0
  | d :: ds => d + 10 * valOfDigits ds

theorem valOfDigits_natDigitsGo : ∀ f n, n ≤ f →
    valOfDigits (natDigitsGo f n) = n := by
  intro f
  induction f using Nat.strong_induction_on with
  | _ f ih =>
    intro n hf
    match f, n with
    | f, 0 => rw [natDigitsGo_zero]; rfl
    | f + 1, n + 1 =>
      rw [natDigitsGo, valOfDigits]
      have hd : (n + 1) / 10 < n + 1 := Nat.div_lt_self (Nat.succ_pos n) (by norm_num)
      rw [natDigitsGo_fuel f ((n + 1) / 10) ((n + 1) / 10) (by omega) le_rfl]
      rw [ih ((n + 1) / 10) (by omega) ((n + 1) / 10) le_rfl]
      omega

theorem natDigitsGo_lt_ten : ∀ f n d, d ∈ natDigitsGo f n → d < 10 := by
  intro f
  induction f using Nat.strong_induction_on with
  | _ f ih =>
    intro n d hd
    match f, n with
    | f, 0 => rw [natDigitsGo_zero] at hd; simp at hd
    | f + 1, n + 1 =>
      rw [natDigitsGo] at hd
      rcases List.mem_cons.mp hd with h | h
      · subst h; exact Nat.mod_lt _ (by norm_num)
      · exact ih f (Nat.lt_succ_self f) _ _ h

theorem digitCh_toNat {d : Nat} (hd : d < 10) : (digitCh d).toNat = 48 + d := by
  interval_cases d <;> decide

theorem digitCh_isDigit {d : Nat} (hd : d < 10) : (digitCh d).isDigit = true := by
  interval_cases d <;> decide

theorem natStr_digits {n : Nat} {c : Char} (hc : c ∈ natStr n) : c.isDigit = true := by
  rw [natStr] at hc
  rcases List.mem_reverse.mp hc |> List.mem_map.mp with ⟨d, hd, rfl⟩
  exact digitCh_isDigit (natDigitsGo_lt_ten _ _ _ hd)

theorem natStr_inj {m n : Nat} (h : natStr m = natStr n) : m = n := by
  have h1 : (natDigitsGo m m).map digitCh = (natDigitsGo n n).map digitCh := by
    have := congrArg List.reverse h
    simpa [natStr] using this
  have hback : ∀ l : List Nat, (∀ d ∈ l, d < 10) →
      (l.map digitCh).map (fun c => c.toNat - 48) = l := by
    intro l hl
    rw [List.map_map]
    have : ∀ d ∈ l, ((fun c : Char => c.toNat - 48) ∘ digitCh) d = id d := by
      intro d hd
      simp [Function.comp, digitCh_toNat (hl d hd)]
    rw [List.map_congr_left this, List.map_id]
  have h2 : natDigitsGo m m = natDigitsGo n n := by
    rw [← hback (natDigitsGo m m) (fun d hd => natDigitsGo_lt_ten _ _ _ hd),
      ← hback (natDigitsGo n n) (fun d hd => natDigitsGo_lt_ten _ _ _ hd), h1]
  rw [← valOfDigits_natDigitsGo m m le_rfl, ← valOfDigits_natDigitsGo n n le_rfl, h2]

theorem natStr_ne_nil {n : Nat} (hn : 1 ≤ n) : natStr n ≠ [] := by
  match n, hn with
  | n + 1, _ =>
    simp only [natStr, ne_eq, List.reverse_eq_nil_iff, List.map_eq_nil_iff]
    rw [natDigitsGo]
    simp

/-- Model of Python `f"{n:03d}"`: the decimal digits of `n`, left-padded with
zeros to width 3. -/
def pad3 (n : Nat) : Str := List.replicate (3 - (natStr n).length) '0' ++ natStr n

theorem natDigits_step {n : Nat} (hn : 1 ≤ n) :
    natDigitsGo n n = (n % 10) :: natDigitsGo (n / 10) (n / 10) := by
  match n, hn with
  | m + 1, _ =>
    rw [natDigitsGo]
    congr 1
    exact natDigitsGo_fuel m ((m + 1) / 10) ((m + 1) / 10) (by omega) le_rfl

theorem natStr_lt10 {n : Nat} (h1 : 1 ≤ n) (h2 : n < 10) :
    natStr n = [digitCh n] := by
  rw [natStr, natDigits_step h1]
  have hq : n / 10 = 0 := by omega
  have hm : n % 10 = n := by omega
  rw [hq, natDigitsGo_zero, hm]
  rfl

theorem natStr_lt100 {n : Nat} (h1 : 10 ≤ n) (h2 : n < 100) :
    natStr n = [digitCh (n / 10), digitCh (n % 10)] := by
  rw [natStr, natDigits_step (by omega), natDigits_step (show 1 ≤ n / 10 by omega)]
  have hq : n / 10 / 10 = 0 := by omega
  have hm : n / 10 % 10 = n / 10 := by omega
  rw [hq, natDigitsGo_zero, hm]
  rfl

theorem natStr_lt1000 {n : Nat} (h1 : 100 ≤ n) (h2 : n < 1000) :
    natStr n = [digitCh (n / 100), digitCh (n / 10 % 10), digitCh (n % 10)] := by
  rw [natStr, natDigits_step (by omega), natDigits_step (show 1 ≤ n / 10 by omega),
    natDigits_step (show 1 ≤ n / 10 / 10 by omega)]
  have hq : n / 10 / 10 / 10 = 0 := by omega
  have hq2 : n / 10 / 10 % 10 = n / 100 := by omega
  have hq3 : n / 10 / 10 = n / 100 := by omega
  rw [hq, natDigitsGo_zero, hq2]
  rfl

theorem pad3_eq {n : Nat} (h1 : 1 ≤ n) (h2 : n ≤ 999) :
    pad3 n = [digitCh (n / 100), digitCh (n / 10 % 10), digitCh (n % 10)] := by
  rcases Nat.lt_or_ge n 10 with h | h
  · have e1 : n / 100 = 0 := by omega
    have e2 : n / 10 % 10 = 0 := by omega
    have e3 : n % 10 = n := by omega
    rw [pad3, natStr_lt10 h1 h, e1, e2, e3]
    rfl
  rcases Nat.lt_or_ge n 100 with h' | h'
  · have e1 : n / 100 = 0 := by omega
    have e2 : n / 10 % 10 = n / 10 := by omega
    have e3 : digitCh 0 = '0' := by decide
    rw [pad3, natStr_lt100 h h', e1, e2, e3]
    rfl
  · rw [pad3, natStr_lt1000 h' (by omega)]
    rfl

/-! ### Lexicographic string comparison and Python `sorted` -/

/-- Python string `<` (code-point lexicographic order). -/
def lexLt : Str → Str → Bool
  | [], [] => false
  | [], _ :: _ => true
  | _ :: _, [] => false
  | a :: as, b :: bs => if a < b then true else if a = b then lexLt as bs else false

/-- Python string `<=`, expressed through `<` (a total order on strings). -/
def lexLe (a b : Str) : Bool := !(lexLt b a)

theorem lexLt_asymm : ∀ {a b : Str}, lexLt a b = true → lexLt b a = false := by
  intro a
  induction a with
  | nil => intro b h; cases b <;> rfl
  | cons x xs ih =>
    intro b h
    cases b with
    | nil => simp [lexLt] at h
    | cons y ys =>
      rw [lexLt] at h ⊢
      rcases lt_trichotomy x y with hlt | heq | hgt
      · have h1 : ¬ y < x := fun hc => absurd (hc.trans hlt) (lt_irrefl y)
        have h2 : y ≠ x := ne_of_gt hlt
        simp [h1, h2]
      · subst heq
        simp only [lt_irrefl, if_false, if_pos rfl] at h ⊢
        exact ih h
      · have h1 : ¬ x < y := fun hc => absurd (hc.trans hgt) (lt_irrefl x)
        have h2 : x ≠ y := ne_of_gt hgt
        simp [h1, h2] at h

theorem lexLe_of_lexLt {a b : Str} (h : lexLt a b = true) : lexLe a b = true := by
  rw [lexLe, lexLt_asymm h]
  rfl

theorem lexLt_append_left : ∀ (x a b : Str),
    lexLt (x ++ a) (x ++ b) = lexLt a b := by
  intro x
  induction x with
  | nil => intro a b; rfl
  | cons c cs ih =>
    intro a b
    show lexLt (c :: (cs ++ a)) (c :: (cs ++ b)) = _
    rw [lexLt, if_neg (lt_irrefl c), if_pos rfl, ih]

theorem lexLt_append_of_same_length : ∀ {a b : Str}, a.length = b.length →
    lexLt a b = true → ∀ (s t : Str), lexLt (a ++ s) (b ++ t) = true := by
  intro a
  induction a with
  | nil =>
    intro b hlen h s t
    cases b with
    | nil => simp [lexLt] at h
    | cons y ys => simp at hlen
  | cons x xs ih =>
    intro b hlen h s t
    cases b with
    | nil => simp at hlen
    | cons y ys =>
      rw [lexLt] at h
      show lexLt (x :: (xs ++ s)) (y :: (ys ++ t)) = true
      rw [lexLt]
      by_cases hxy : x < y
      · simp [hxy]
      · by_cases hexy : x = y
        · rw [if_neg hxy, if_pos hexy] at h ⊢
          exact ih (by simpa using hlen) h s t
        · simp [hxy, hexy] at h

/-- Insertion into a sorted list (used to model Python `sorted`). -/
def insertBy (le : α → α → Bool) (x : α) : List α → List α
  | [] => [x]
  | y :: ys => if le x y then x :: y :: ys else y :: insertBy le x ys

/-- Model of Python `sorted`: for the distinct keys handled here any
comparison sort produces the same result, so insertion sort is used. -/
def sortBy (le : α → α → Bool) : List α → List α
  | [] => []
  | x :: xs => insertBy le x (sortBy le xs)

theorem sortBy_of_chain {le : α → α → Bool} :
    ∀ {l : List α}, List.Chain' (fun x y => le x y = true) l → sortBy le l = l := by
  intro l
  induction l with
  | nil => intro _; rfl
  | cons x xs ih =>
    intro h
    rw [sortBy, ih h.tail]
    cases xs with
    | nil => rfl
    | cons y ys =>
      have hxy : le x y = true := List.chain'_cons.mp h |>.1
      rw [insertBy, if_pos hxy]

/-! ### Splitter and merger (`text_splitter.py`)

Files are line-oriented: a file's content is the concatenation of its lines
(each line carries its own trailing newline, as Python's line iteration
yields them).  The disk is modelled as a list of `(name, lines)` pairs in
creation order. -/

/-- Output-file name `f"{output_prefix}_part_{file_number:03d}.txt"`. -/
def partName (pre : Str) (n : Nat) : Str :=
  pre ++ "_part_".data ++ pad3 n ++ ".txt".data

/-- The line-writing loop of `split_text_file`: `cur` holds the lines already
written to the currently open output file (`current_lines = cur.length`) and
`fnum` is `file_number`.  A new file is opened when `current_lines` is zero,
and the counter resets each time it reaches `lines_per_file`. -/
def splitGo (L : Nat) : List Str → Nat → List Str → List (Nat × List Str)
  | [], fnum, cur => if cur.isEmpty then [] else [(fnum, cur)]
  | line :: rest, fnum, cur =>
    if L ≤ (cur ++ [line]).length then
      (fnum, cur ++ [line]) :: splitGo L rest (fnum + 1) []
    else splitGo L rest fnum (cur ++ [line])

/-- Result of `split_text_file`: the `FileNotFoundError` raise, the
`return []` taken in the `except` branch (an empty manifest and no folder
component), or the normal `(output_files, folder)` return. -/
inductive SplitResult where
  | raisedFileNotFound : SplitResult
  | errEmpty : SplitResult
  | ok (files : List Str) (folder : Option Str) : SplitResult
deriving DecidableEq

/-- The writing pass of `split_text_file` with an I/O-failure oracle:
`failAt = some k` makes the write of line number `k` (0-based, counted by
`idx`) raise.  Returns whether the pass completed and the files present on
disk afterwards (in creation order; a file is created on disk when opened,
so a failed first write leaves an empty file behind). -/
def splitIOGo (L : Nat) (pre : Str) (failAt : Option Nat) :
    List Str → Nat → Nat → List Str → Bool × List (Str × List Str)
  | [], fnum, _, cur =>
    (true, if cur.isEmpty then [] else [(partName pre fnum, cur)])
  | line :: rest, fnum, idx, cur =>
    if failAt = some idx then
      (false, [(partName pre fnum, cur)])
    else if L ≤ (cur ++ [line]).length then
      let r := splitIOGo L pre failAt rest (fnum + 1) (idx + 1) []
      (r.1, (partName pre fnum, cur ++ [line]) :: r.2)
    else splitIOGo L pre failAt rest fnum (idx + 1) (cur ++ [line])

/-- Model of `split_text_file`.  `input` is `none` when the input path does
not exist, otherwise the file's lines.  `stamp` models the timestamp used in
the folder name.  Returns the result, the files written to disk, and whether
the output folder was created. -/
def split_text_file (input : Option (List Str)) (L : Nat) (pre : Str)
    (createFolder : Bool) (stamp : Str) (failAt : Option Nat) :
    SplitResult × List (Str × List Str) × Bool :=
  match input with
  | none => (.raisedFileNotFound, [], false)
  | some lines =>
    let folder := pre ++ "_split_".data ++ stamp
    let r := splitIOGo L pre failAt lines 1 0 []
    if r.1 then
      (.ok ((splitGo L lines 1 []).map (fun c => partName pre c.1))
        (if createFolder then some folder else none), r.2, createFolder)
    else (.errEmpty, r.2, createFolder)

/-- Contents of the split's output files, named, in creation order (a file's
content is the concatenation of its lines). -/
def splitOutputs (L : Nat) (pre : Str) (lines : List Str) : List (Str × Str) :=
  (splitGo L lines 1 []).map (fun c => (partName pre c.1, c.2.flatten))

/-- `merge_text_files` reads the matched files in `sorted(...)` order of
their names and concatenates their contents. -/
def mergedContent (files : List (Str × Str)) : Str :=
  ((sortBy (fun a b => lexLe a.1 b.1) files).map Prod.snd).flatten

/-- Default output name of `merge_text_files`:
`file_pattern.replace("_part_*.txt", "").replace("*", "merged")` followed by
`"_merged.txt"`. -/
def derivedDefaultName (pat : Str) : Str :=
  replaceAll "*".data "merged".data (replaceAll "_part_*.txt".data [] pat)
    ++ "_merged.txt".data

/-- `os.path.basename` for POSIX paths: the part after the last `/`. -/
def basenamePosix (p : Str) : Str :=
  (p.reverse.takeWhile (fun c => !(c = '/'))).reverse

/-- Name synthesised when the resolved output path is an existing directory:
`os.path.basename(file_pattern).replace("*", "merged").replace(".txt", "")`
followed by `"_merged.txt"`. -/
def dirCaseName (pat : Str) : Str :=
  replaceAll ".txt".data [] (replaceAll "*".data "merged".data (basenamePosix pat))
    ++ "_merged.txt".data

/-- Output-path resolution of `merge_text_files`: take the given output path
or derive the default, then, if that names an existing directory, place the
synthesised file name inside it. -/
def resolveOutputName (pat : Str) (output : Option Str) (isDir : Str → Bool) : Str :=
  let o := match output with
    | some o => o
    | none => derivedDefaultName pat
  if isDir o then o ++ "/".data ++ dirCaseName pat else o

/-- Model of `merge_text_files`: `files` are the `(name, content)` pairs the
glob matched; raises `FileNotFoundError` (modelled as `.error ()`) exactly
when no file matched, otherwise returns the resolved output name and the
concatenated content. -/
def merge_text_files (files : List (Str × Str)) (pat : Str)
    (output : Option Str) (isDir : Str → Bool) : Except Unit (Str × Str) :=
  if files.isEmpty then .error ()
  else .ok (resolveOutputName pat output isDir, mergedContent files)

/-! ### Properties of the splitting loop -/

theorem splitGo_flatten (L : Nat) : ∀ (lines : List Str) (fnum : Nat) (cur : List Str),
    ((splitGo L lines fnum cur).map Prod.snd).flatten = cur ++ lines := by
  intro lines
  induction lines with
  | nil =>
    intro fnum cur
    rw [splitGo]
    cases cur <;> simp
  | cons l rest ih =>
    intro fnum cur
    rw [splitGo]
    by_cases h : L ≤ (cur ++ [l]).length
    · rw [if_pos h]
      simp [ih]
    · rw [if_neg h, ih]
      simp

theorem splitGo_ne_nil {L : Nat} : ∀ {lines : List Str} {fnum : Nat} {cur : List Str},
    ¬ (lines = [] ∧ cur = []) → splitGo L lines fnum cur ≠ [] := by
  intro lines
  induction lines with
  | nil =>
    intro fnum cur h
    rw [splitGo]
    have : ¬ cur.isEmpty := by
      cases cur with
      | nil => exact absurd ⟨rfl, rfl⟩ h
      | cons x xs => simp
    rw [if_neg this]
    simp
  | cons l rest ih =>
    intro fnum cur _
    rw [splitGo]
    by_cases h : L ≤ (cur ++ [l]).length
    · rw [if_pos h]; simp
    · rw [if_neg h]
      apply ih
      rintro ⟨_, hc⟩
      simp at hc

theorem splitGo_length {L : Nat} (hL : 0 < L) :
    ∀ (lines : List Str) (fnum : Nat) (cur : List Str), cur.length < L →
    ¬ (lines = [] ∧ cur = []) →
    (splitGo L lines fnum cur).length = (cur.length + lines.length + L - 1) / L := by
  intro lines
  induction lines with
  | nil =>
    intro fnum cur hcur h
    rw [splitGo]
    have hc : cur ≠ [] := fun hc => h ⟨rfl, hc⟩
    have : ¬ cur.isEmpty := by simpa using hc
    rw [if_neg this]
    have h0 : 0 < cur.length := List.length_pos.mpr hc
    simp only [List.length_cons, List.length_nil]
    have hdiv : (cur.length + 0 + L - 1) / L = 1 := Nat.div_eq_of_lt_le (by omega) (by omega)
    omega
  | cons l rest ih =>
    intro fnum cur hcur _
    rw [splitGo]
    by_cases h : L ≤ (cur ++ [l]).length
    · rw [if_pos h]
      have hlen : cur.length + 1 = L := by
        simp only [List.length_append, List.length_cons, List.length_nil] at h
        omega
      by_cases hr : rest = []
      · subst hr
        rw [splitGo]
        simp only [List.isEmpty_nil, if_true, List.length_singleton, List.length_cons,
          List.length_nil]
        have hdiv : (cur.length + (0 + 1) + L - 1) / L = 1 :=
          Nat.div_eq_of_lt_le (by omega) (by omega)
        omega
      · simp only [List.length_cons]
        rw [ih (fnum + 1) [] hL (fun hc => hr hc.1)]
        simp only [List.length_nil, Nat.zero_add]
        have harith : cur.length + (rest.length + 1) + L - 1 = rest.length + L - 1 + L := by
          omega
        rw [harith, Nat.add_div_right _ hL]
    · rw [if_neg h]
      have hlen : (cur ++ [l]).length < L := by omega
      rw [ih fnum (cur ++ [l]) hlen (fun hc => by simpa using hc.2)]
      simp only [List.length_append, List.length_cons, List.length_nil]
      congr 1
      omega

theorem splitGo_numbers (L : Nat) : ∀ (lines : List Str) (fnum : Nat) (cur : List Str),
    (splitGo L lines fnum cur).map Prod.fst =
      List.range' fnum (splitGo L lines fnum cur).length := by
  intro lines
  induction lines with
  | nil =>
    intro fnum cur
    rw [splitGo]
    cases h : cur.isEmpty <;> simp
  | cons l rest ih =>
    intro fnum cur
    rw [splitGo]
    by_cases h : L ≤ (cur ++ [l]).length
    · rw [if_pos h]
      simp only [List.map_cons, List.length_cons, ih, List.range'_succ]
    · rw [if_neg h]
      exact ih fnum (cur ++ [l])

theorem splitGo_middle_sizes {L : Nat} (hL : 0 < L) :
    ∀ (lines : List Str) (fnum : Nat) (cur : List Str), cur.length < L →
    ∀ p ∈ (splitGo L lines fnum cur).dropLast, (Prod.snd p).length = L := by
  intro lines
  induction lines with
  | nil =>
    intro fnum cur _ p hp
    rw [splitGo] at hp
    cases h : cur.isEmpty <;> simp [h] at hp
  | cons l rest ih =>
    intro fnum cur hcur p hp
    rw [splitGo] at hp
    by_cases h : L ≤ (cur ++ [l]).length
    · rw [if_pos h] at hp
      cases htail : splitGo L rest (fnum + 1) [] with
      | nil => rw [htail] at hp; simp at hp
      | cons q qs =>
        rw [htail, List.dropLast_cons_of_ne_nil (by simp), List.mem_cons] at hp
        rcases hp with hp | hp
        · subst hp
          simp only [List.length_append, List.length_cons, List.length_nil] at h ⊢
          omega
        · have := ih (fnum + 1) [] hL
          rw [htail] at this
          exact this p hp
    · rw [if_neg h] at hp
      exact ih fnum (cur ++ [l]) (by omega) p hp

theorem splitGo_last_size {L : Nat} (hL : 0 < L) :
    ∀ (lines : List Str) (fnum : Nat) (cur : List Str), cur.length < L →
    ¬ (lines = [] ∧ cur = []) →
    ∀ p, (splitGo L lines fnum cur).getLast? = some p →
      (Prod.snd p).length =
        if (cur.length + lines.length) % L = 0 then L
        else (cur.length + lines.length) % L := by
  intro lines
  induction lines with
  | nil =>
    intro fnum cur hcur h p hp
    have hc : cur ≠ [] := fun hc => h ⟨rfl, hc⟩
    rw [splitGo, if_neg (by simpa using hc)] at hp
    simp only [List.getLast?_singleton, Option.some.injEq] at hp
    subst hp
    have h0 : 0 < cur.length := List.length_pos.mpr hc
    have hm : (cur.length + ([] : List Str).length) % L = cur.length := by
      simp only [List.length_nil, Nat.add_zero]
      exact Nat.mod_eq_of_lt hcur
    rw [hm, if_neg (by omega)]
  | cons l rest ih =>
    intro fnum cur hcur _ p hp
    rw [splitGo] at hp
    by_cases h : L ≤ (cur ++ [l]).length
    · rw [if_pos h] at hp
      have hlen : cur.length + 1 = L := by
        simp only [List.length_append, List.length_cons, List.length_nil] at h
        omega
      by_cases hr : rest = []
      · subst hr
        rw [splitGo] at hp
        simp only [List.isEmpty_nil, if_true, List.getLast?_singleton,
          Option.some.injEq] at hp
        subst hp
        have hmod : (cur.length + ([l] : List Str).length) % L = 0 := by
          simp only [List.length_singleton]
          rw [hlen, Nat.mod_self]
        rw [hmod, if_pos rfl]
        simp only [List.length_append, List.length_singleton]
        omega
      · have htail : splitGo L rest (fnum + 1) [] ≠ [] :=
          splitGo_ne_nil (fun hc => hr hc.1)
        rw [show (cur.length + (l :: rest).length) % L = rest.length % L by
          simp only [List.length_cons]
          have harg : cur.length + (rest.length + 1) = rest.length + 1 * L := by omega
          rw [harg, Nat.add_mul_mod_self_right]]
        cases hc : splitGo L rest (fnum + 1) [] with
        | nil => exact absurd hc htail
        | cons q qs =>
          rw [hc, List.getLast?_cons_cons] at hp
          have := ih (fnum + 1) [] hL (fun hcc => hr hcc.1) p
            (by rw [hc]; exact hp)
          simpa using this
    · rw [if_neg h] at hp
      have := ih fnum (cur ++ [l]) (by omega)
        (fun hc => by simpa using hc.2) p hp
      simp only [List.length_append, List.length_cons, List.length_nil] at this ⊢
      have harg : cur.length + 1 + rest.length = cur.length + (rest.length + 1) := by omega
      rw [harg] at this
      exact this

theorem digitCh_lt_iff {a b : Nat} (ha : a < 10) (hb : b < 10) :
    digitCh a < digitCh b ↔ a < b := by
  interval_cases a <;> interval_cases b <;> decide

theorem pad3_length {n : Nat} (h1 : 1 ≤ n) (h2 : n ≤ 999) : (pad3 n).length = 3 := by
  rw [pad3_eq h1 h2]
  rfl

theorem pad3_lexLt {i j : Nat} (h1 : 1 ≤ i) (hij : i < j) (h2 : j ≤ 999) :
    lexLt (pad3 i) (pad3 j) = true := by
  rw [pad3_eq h1 (by omega), pad3_eq (by omega) h2]
  have hi1 : i / 100 < 10 := by omega
  have hj1 : j / 100 < 10 := by omega
  have hi2 : i / 10 % 10 < 10 := by omega
  have hj2 : j / 10 % 10 < 10 := by omega
  have hi3 : i % 10 < 10 := by omega
  have hj3 : j % 10 < 10 := by omega
  rcases Nat.lt_trichotomy (i / 100) (j / 100) with hc | hc | hc
  · rw [lexLt, if_pos ((digitCh_lt_iff hi1 hj1).mpr hc)]
  · rw [lexLt, hc, if_neg (lt_irrefl _), if_pos rfl]
    rcases Nat.lt_trichotomy (i / 10 % 10) (j / 10 % 10) with hd | hd | hd
    · rw [lexLt, if_pos ((digitCh_lt_iff hi2 hj2).mpr hd)]
    · rw [lexLt, hd, if_neg (lt_irrefl _), if_pos rfl]
      have hm : i % 10 < j % 10 := by omega
      rw [lexLt, if_pos ((digitCh_lt_iff hi3 hj3).mpr hm)]
    · exact absurd hd (by omega)
  · exact absurd hc (by omega)

theorem partName_lexLt {pre : Str} {i j : Nat} (h1 : 1 ≤ i) (hij : i < j)
    (h2 : j ≤ 999) : lexLt (partName pre i) (partName pre j) = true := by
  rw [partName, partName, List.append_assoc (pre ++ "_part_".data),
    List.append_assoc (pre ++ "_part_".data), lexLt_append_left]
  exact lexLt_append_of_same_length
    (by rw [pad3_length h1 (by omega), pad3_length (by omega) h2])
    (pad3_lexLt h1 hij h2) _ _

theorem chain'_range' {R : Nat → Nat → Prop} :
    ∀ (n s : Nat), (∀ i, s ≤ i → i + 1 < s + n → R i (i + 1)) →
    List.Chain' R (List.range' s n) := by
  intro n
  induction n with
  | zero => intro s _; simp
  | succ m ih =>
    intro s h
    rw [List.range'_succ]
    cases m with
    | zero => simp
    | succ m' =>
      rw [List.range'_succ]
      apply List.chain'_cons.mpr
      constructor
      · exact h s le_rfl (by omega)
      · rw [← List.range'_succ]
        exact ih (s + 1) (fun i hi1 hi2 => h i (by omega) (by omega))

theorem flatten_map_flatten (l : List (List Str)) :
    (l.map (fun ls => ls.flatten)).flatten = l.flatten.flatten := by
  induction l with
  | nil => rfl
  | cons a l ih => simp [ih]

theorem splitOutputs_sorted {L : Nat} {pre : Str} {lines : List Str}
    (hK : (splitGo L lines 1 []).length ≤ 999) :
    sortBy (fun a b => lexLe a.1 b.1) (splitOutputs L pre lines)
      = splitOutputs L pre lines := by
  apply sortBy_of_chain
  rw [splitOutputs, List.chain'_map]
  have hfst : List.Chain'
      (fun a b => lexLe (partName pre a) (partName pre b) = true)
      ((splitGo L lines 1 []).map Prod.fst) := by
    rw [splitGo_numbers]
    apply chain'_range'
    intro i hi1 hi2
    exact lexLe_of_lexLt (partName_lexLt hi1 (Nat.lt_succ_self i) (by omega))
  exact (List.chain'_map Prod.fst).mp hfst

/-- With no injected I/O failure, the writing pass succeeds and the disk holds
exactly the files of the pure splitting loop. -/
theorem splitIOGo_none (L : Nat) (pre : Str) :
    ∀ (lines : List Str) (fnum idx : Nat) (cur : List Str),
    splitIOGo L pre none lines fnum idx cur =
      (true, (splitGo L lines fnum cur).map (fun c => (partName pre c.1, c.2))) := by
  intro lines
  induction lines with
  | nil =>
    intro fnum idx cur
    rw [splitIOGo, splitGo]
    cases h : cur.isEmpty <;> simp [h]
  | cons l rest ih =>
    intro fnum idx cur
    rw [splitIOGo, splitGo]
    simp only [reduceCtorEq, if_false]
    by_cases h : L ≤ (cur ++ [l]).length
    · rw [if_pos h, if_pos h, ih]
      simp
    · rw [if_neg h, if_neg h, ih]

/-- If the write of line `k` raises, the pass reports failure and the disk
holds exactly the lines written before the failure (partial output is left in
place, not rolled back). -/
theorem splitIOGo_fail (L : Nat) (pre : Str) (k : Nat) :
    ∀ (lines : List Str) (fnum idx : Nat) (cur : List Str), idx ≤ k →
    k < idx + lines.length →
    (splitIOGo L pre (some k) lines fnum idx cur).1 = false ∧
    (((splitIOGo L pre (some k) lines fnum idx cur).2.map Prod.snd).flatten
      = cur ++ lines.take (k - idx)) := by
  intro lines
  induction lines with
  | nil =>
    intro fnum idx cur h1 h2
    simp at h2
    omega
  | cons l rest ih =>
    intro fnum idx cur h1 h2
    rw [splitIOGo]
    by_cases hk : k = idx
    · subst hk
      rw [if_pos rfl]
      constructor
      · rfl
      · simp
    · rw [if_neg (by simpa using hk)]
      have hlt : idx < k := by omega
      by_cases h : L ≤ (cur ++ [l]).length
      · rw [if_pos h]
        have := ih (fnum + 1) (idx + 1) [] (by omega) (by simp at h2 ⊢; omega)
        refine ⟨this.1, ?_⟩
        simp only [List.map_cons, List.flatten_cons]
        rw [this.2]
        have htake : (l :: rest).take (k - idx) = l :: rest.take (k - (idx + 1)) := by
          have : k - idx = (k - (idx + 1)) + 1 := by omega
          rw [this, List.take_succ_cons]
        rw [htake]
        simp
      · rw [if_neg h]
        have := ih fnum (idx + 1) (cur ++ [l]) (by omega) (by simp at h2 ⊢; omega)
        refine ⟨this.1, ?_⟩
        rw [this.2]
        have htake : (l :: rest).take (k - idx) = l :: rest.take (k - (idx + 1)) := by
          have : k - idx = (k - (idx + 1)) + 1 := by omega
          rw [this, List.take_succ_cons]
        rw [htake]
        simp

/-! ### Order-theoretic facts about `lexLt`, and insertion-sort lemmas,
used to evaluate the merge order of a 1000-file split symbolically. -/

theorem lexLt_trans : ∀ {a b c : Str}, lexLt a b = true → lexLt b c = true →
    lexLt a c = true := by
  intro a
  induction a with
  | nil =>
    intro b c hab hbc
    cases b with
    | nil => simp [lexLt] at hab
    | cons y ys =>
      cases c with
      | nil => simp [lexLt] at hbc
      | cons z zs => rfl
  | cons x xs ih =>
    intro b c hab hbc
    cases b with
    | nil => simp [lexLt] at hab
    | cons y ys =>
      cases c with
      | nil => simp [lexLt] at hbc
      | cons z zs =>
        rw [lexLt] at hab hbc ⊢
        by_cases hxy : x < y
        · by_cases hyz : y < z
          · rw [if_pos (hxy.trans hyz)]
          · by_cases heyz : y = z
            · subst heyz; rw [if_pos hxy]
            · simp [hyz, heyz] at hbc
        · by_cases hexy : x = y
          · subst hexy
            rw [if_neg hxy, if_pos rfl] at hab
            by_cases hyz : x < z
            · rw [if_pos hyz]
            · by_cases heyz : x = z
              · subst heyz
                rw [if_neg hyz, if_pos rfl] at hbc ⊢
                exact ih hab hbc
              · simp [hyz, heyz] at hbc
          · simp [hxy, hexy] at hab

theorem lexLt_connex : ∀ {a b : Str}, lexLt a b = false → lexLt b a = false →
    a = b := by
  intro a
  induction a with
  | nil =>
    intro b hab _
    cases b with
    | nil => rfl
    | cons y ys => simp [lexLt] at hab
  | cons x xs ih =>
    intro b hab hba
    cases b with
    | nil => simp [lexLt] at hba
    | cons y ys =>
      rw [lexLt] at hab hba
      rcases lt_trichotomy x y with h | h | h
      · simp [h] at hab
      · subst h
        rw [if_neg (lt_irrefl x), if_pos rfl] at hab hba
        rw [ih hab hba]
      · simp [h] at hba

/-- `lexLe` is transitive. -/
theorem lexLe_trans {a b c : Str} (hab : lexLe a b = true) (hbc : lexLe b c = true) :
    lexLe a c = true := by
  rw [lexLe, Bool.not_eq_true'] at hab hbc ⊢
  by_cases hca : lexLt c a = true
  · rcases Bool.eq_false_or_eq_true (lexLt b c) with hbc' | hbc'
    · have := lexLt_trans hbc' hca
      rw [this] at hab
      simp at hab
    · have := lexLt_connex hbc hbc'
      subst this
      exact absurd hca (by rw [hab]; simp)
  · simpa using hca

/-- `lexLe` is total. -/
theorem lexLe_total (a b : Str) : lexLe a b = true ∨ lexLe b a = true := by
  rw [lexLe, lexLe, Bool.not_eq_true', Bool.not_eq_true']
  rcases Bool.eq_false_or_eq_true (lexLt b a) with h | h
  · exact Or.inr (lexLt_asymm h)
  · exact Or.inl h

/-- Inserting `x` into the concatenation at the point where `le x` first
holds. -/
theorem insertBy_split {le : α → α → Bool} {x : α} :
    ∀ (u1 u2 : List α), (∀ y ∈ u1, le x y = false) →
    (u2 = [] ∨ ∃ h t, u2 = h :: t ∧ le x h = true) →
    insertBy le x (u1 ++ u2) = u1 ++ x :: u2 := by
  intro u1
  induction u1 with
  | nil =>
    intro u2 _ h2
    rcases h2 with h2 | ⟨h, t, rfl, hh⟩
    · subst h2; rfl
    · rw [List.nil_append, insertBy, if_pos hh]
      rfl
  | cons a u1' ih =>
    intro u2 h1 h2
    rw [List.cons_append, insertBy, if_neg (by rw [h1 a (List.mem_cons_self a u1')]; simp),
      ih u2 (fun y hy => h1 y (List.mem_cons_of_mem a hy)) h2]
    rfl

/-- Sorting `u ++ [x]` when `u` is already sorted and `x` ties with nothing:
the result is `x` inserted into `u`. -/
theorem sortBy_chain_append_one {le : α → α → Bool}
    (htrans : ∀ a b c, le a b = true → le b c = true → le a c = true)
    (htot : ∀ a b, le a b = true ∨ le b a = true) {x : α} :
    ∀ {u : List α}, List.Chain' (fun p q => le p q = true) u →
    (∀ y ∈ u, ¬(le x y = true ∧ le y x = true)) →
    sortBy le (u ++ [x]) = insertBy le x u := by
  intro u
  induction u with
  | nil => intro _ _; rfl
  | cons a u' ih =>
    intro hchain hstrict
    rw [List.cons_append, sortBy, ih hchain.tail
      (fun y hy => hstrict y (List.mem_cons_of_mem a hy))]
    have hstricta := hstrict a (List.mem_cons_self a u')
    by_cases hxa : le x a = true
    · have hax : le a x = false := by
        rcases Bool.eq_false_or_eq_true (le a x) with h | h
        · exact absurd ⟨hxa, h⟩ hstricta
        · exact h
      rw [show insertBy le x (a :: u') = x :: a :: u' by rw [insertBy, if_pos hxa]]
      cases u' with
      | nil =>
        show insertBy le a [x] = [x, a]
        rw [insertBy, if_neg (by rw [hax]; simp)]
        rfl
      | cons b u'' =>
        have hab : le a b = true := List.chain'_cons.mp hchain |>.1
        have hxb : le x b = true := htrans x a b hxa hab
        rw [show insertBy le x (b :: u'') = x :: b :: u'' by rw [insertBy, if_pos hxb]]
        rw [insertBy, if_neg (by rw [hax]; simp), insertBy, if_pos hab]
    · have hax : le a x = true := by
        rcases htot x a with h | h
        · exact absurd h hxa
        · exact h
      rw [show insertBy le x (a :: u') = a :: insertBy le x u' by
        rw [insertBy, if_neg (by simpa using hxa)]]
      cases u' with
      | nil =>
        show insertBy le a [x] = [a, x]
        rw [insertBy, if_pos hax]
      | cons b u'' =>
        have hab : le a b = true := List.chain'_cons.mp hchain |>.1
        by_cases hxb : le x b = true
        · rw [show insertBy le x (b :: u'') = x :: b :: u'' by rw [insertBy, if_pos hxb],
            insertBy, if_pos hax]
        · rw [show insertBy le x (b :: u'') = b :: insertBy le x u'' by
            rw [insertBy, if_neg (by simpa using hxb)]]
          rw [insertBy, if_pos hab]

theorem flatten_singletons (f : α → Char) :
    ∀ (l : List α), (l.map (fun i => [f i])).flatten = l.map f := by
  intro l
  induction l with
  | nil => rfl
  | cons a l ih => simp [ih]

/-- The splitting loop with one line per file: every line becomes its own
numbered file. -/
theorem splitGo_one_map (g : Nat → Str) :
    ∀ (n f : Nat), splitGo 1 ((List.range' f n).map g) f []
      = (List.range' f n).map (fun i => (i, [g i])) := by
  intro n
  induction n with
  | zero => intro f; rfl
  | succ m ih =>
    intro f
    rw [List.range'_succ, List.map_cons, splitGo, if_pos (by simp), List.map_cons]
    have := ih (f + 1)
    simp only [Nat.mul_one] at this ⊢
    rw [this]
    simp

/-! ### The 1000-file merge-order failure -/

theorem partName_pad : ∀ n : Nat, partName [] n = "_part_".data ++ (pad3 n ++ ".txt".data) := by
  intro n
  rw [partName, List.nil_append, List.append_assoc]

theorem nameA {i : Nat} (h1 : 1 ≤ i) (h2 : i ≤ 100) :
    lexLt (partName [] i) (partName [] 1000) = true := by
  rcases Nat.lt_or_ge i 100 with h | h
  · rw [partName_pad, partName_pad, lexLt_append_left]
    have e1 : i / 100 = 0 := by omega
    rw [pad3_eq h1 (by omega), e1,
      show pad3 1000 = ['1', '0', '0', '0'] from by decide]
    simp only [List.cons_append]
    rw [lexLt, if_pos (by decide : digitCh 0 < '1')]
  · have : i = 100 := by omega
    subst this
    decide

theorem nameB : lexLt (partName [] 101) (partName [] 1000) = false := by decide

theorem nameC {i : Nat} (h1 : 101 ≤ i) (h2 : i ≤ 999) :
    lexLt (partName [] 1000) (partName [] i) = true := by
  rw [partName_pad, partName_pad, lexLt_append_left]
  rw [pad3_eq (by omega) h2,
    show pad3 1000 = [digitCh 1, digitCh 0, digitCh 0, digitCh 0] from by decide]
  have hd1 : i / 100 < 10 := by omega
  have hd2 : i / 10 % 10 < 10 := by omega
  have hd3 : i % 10 < 10 := by omega
  have hcase : 2 ≤ i / 100 ∨ (i / 100 = 1 ∧ (1 ≤ i / 10 % 10 ∨
      (i / 10 % 10 = 0 ∧ 1 ≤ i % 10))) := by omega
  simp only [List.cons_append]
  rcases hcase with hc | ⟨hc1, hc⟩
  · rw [lexLt, if_pos ((digitCh_lt_iff (by norm_num) hd1).mpr (by omega))]
  · rw [hc1, lexLt, if_neg (lt_irrefl _), if_pos rfl]
    rcases hc with hc | ⟨hc2, hc3⟩
    · rw [lexLt, if_pos ((digitCh_lt_iff (by norm_num) hd2).mpr (by omega))]
    · rw [hc2, lexLt, if_neg (lt_irrefl _), if_pos rfl,
        lexLt, if_pos ((digitCh_lt_iff (by norm_num) hd3).mpr (by omega))]

/-- Line `i` of the 1000-line counterexample input: line 101 is `"a"`, every
other line `"b"`. -/
def cChar (i : Nat) : Char := if i = 101 then 'a' else 'b'

/-- A 1000-line input file; split with `lines_per_file = 1` it produces 1000
output files, and the 4-digit name `_part_1000.txt` sorts between
`_part_100.txt` and `_part_101.txt`. -/
def linesThousand : List Str := (List.range' 1 1000).map (fun i => [cChar i])

theorem c1_merge_order_broken :
    ¬ (mergedContent (splitOutputs 1 [] linesThousand) = linesThousand.flatten) := by
  intro heq
  have hsplit : splitOutputs 1 [] linesThousand
      = (List.range' 1 1000).map (fun i => (partName [] i, [cChar i])) := by
    rw [splitOutputs, linesThousand, splitGo_one_map (fun i => [cChar i]) 1000 1,
      List.map_map]
    rfl
  have hrange : List.range' 1 1000 = List.range' 1 999 ++ [1000] := by
    have h := List.range'_append 1 999 1 1
    norm_num at h
    rw [← h]
  have hrange2 : List.range' 1 999 = List.range' 1 100 ++ List.range' 101 899 := by
    have h := List.range'_append 1 100 899 1
    norm_num at h
    rw [← h]
  have hchain : List.Chain' (fun p q : Str × Str => lexLe p.1 q.1 = true)
      ((List.range' 1 999).map (fun i => (partName [] i, [cChar i]))) := by
    rw [List.chain'_map]
    apply chain'_range'
    intro i hi1 hi2
    exact lexLe_of_lexLt (partName_lexLt hi1 (Nat.lt_succ_self i) (by omega))
  have hstrict : ∀ y ∈ (List.range' 1 999).map (fun i => (partName [] i, [cChar i])),
      ¬(lexLe (partName [] 1000) y.1 = true ∧ lexLe y.1 (partName [] 1000) = true) := by
    intro y hy
    rcases List.mem_map.mp hy with ⟨i, hi, rfl⟩
    have hib := List.mem_range'_1.mp hi
    rcases Nat.lt_or_ge i 101 with hc | hc
    · rintro ⟨hxy, -⟩
      rw [lexLe, nameA hib.1 (by omega)] at hxy
      simp at hxy
    · rintro ⟨-, hyx⟩
      rw [lexLe, nameC hc (by omega)] at hyx
      simp at hyx
  have hsort : sortBy (fun a b : Str × Str => lexLe a.1 b.1)
        (((List.range' 1 999).map (fun i => (partName [] i, [cChar i])))
          ++ [(partName [] 1000, [cChar 1000])])
      = ((List.range' 1 100).map (fun i => (partName [] i, [cChar i])))
        ++ (partName [] 1000, [cChar 1000])
          :: ((List.range' 101 899).map (fun i => (partName [] i, [cChar i]))) := by
    rw [@sortBy_chain_append_one (Str × Str) (fun a b => lexLe a.1 b.1)
      (fun a b c hab hbc => lexLe_trans hab hbc)
      (fun a b => lexLe_total a.1 b.1)
      (partName [] 1000, [cChar 1000]) _ hchain hstrict]
    rw [hrange2, List.map_append]
    apply insertBy_split
    · intro y hy
      rcases List.mem_map.mp hy with ⟨i, hi, rfl⟩
      have hib := List.mem_range'_1.mp hi
      rw [lexLe, nameA hib.1 (by omega)]
      rfl
    · right
      refine ⟨(partName [] 101, [cChar 101]),
        (List.range' 102 898).map (fun i => (partName [] i, [cChar i])), ?_, ?_⟩
      · rw [show List.range' 101 899 = 101 :: List.range' 102 898 from by
          rw [List.range'_succ]]
        rfl
      · rw [lexLe, nameB]
        rfl
  have hmerged : mergedContent (splitOutputs 1 [] linesThousand)
      = (List.range' 1 100).map cChar
        ++ cChar 1000 :: (List.range' 101 899).map cChar := by
    rw [mergedContent, hsplit, hrange, List.map_append]
    rw [show ((([1000] : List Nat).map (fun i => (partName [] i, [cChar i])))
        = [(partName [] 1000, [cChar 1000])]) from rfl]
    rw [hsort]
    simp only [List.map_append, List.map_cons, List.map_map, List.flatten_append,
      List.flatten_cons]
    rw [show ((fun p : Str × Str => p.2) ∘ fun i => (partName [] i, [cChar i]))
        = (fun i => [cChar i]) from rfl]
    rw [flatten_singletons, flatten_singletons]
    simp
  have horig : linesThousand.flatten = (List.range' 1 1000).map cChar := by
    rw [linesThousand, flatten_singletons]
  have h1 : (mergedContent (splitOutputs 1 [] linesThousand))[100]? = some (cChar 1000) := by
    rw [hmerged, List.getElem?_append_right (by simp)]
    simp
  have h2 : (linesThousand.flatten)[100]? = some (cChar 101) := by
    rw [horig, List.getElem?_map, List.getElem?_range' _ _ (by norm_num)]
    norm_num
  rw [heq, h2] at h1
  have : cChar 101 = cChar 1000 := Option.some.inj h1
  simp [cChar] at this

/-- Splitting a non-empty input with positive `lines_per_file`, provided at
most 999 output files result: file count is `⌈N / L⌉`, numbering is
1-based and contiguous in creation order, every file except the last holds
exactly `L` lines, the last holds `N mod L` (or `L` when `N mod L = 0`), and
concatenating the outputs in sorted name order reproduces the input. -/
theorem split_merge_spec (L : Nat) (pre : Str) (lines : List Str)
    (hL : 0 < L) (hne : lines ≠ [])
    (hK : (lines.length + L - 1) / L ≤ 999) :
    (splitOutputs L pre lines).length = (lines.length + L - 1) / L ∧
    (splitGo L lines 1 []).map Prod.fst
      = List.range' 1 ((lines.length + L - 1) / L) ∧
    (∀ p ∈ (splitGo L lines 1 []).dropLast, (Prod.snd p).length = L) ∧
    (∀ p, (splitGo L lines 1 []).getLast? = some p →
      (Prod.snd p).length = if lines.length % L = 0 then L
        else lines.length % L) ∧
    mergedContent (splitOutputs L pre lines) = lines.flatten := by
  have hcount : (splitGo L lines 1 []).length = (lines.length + L - 1) / L := by
    have h := splitGo_length hL lines 1 [] (by simpa using hL) (fun h => hne h.1)
    simpa using h
  refine ⟨?_, ?_, ?_, ?_, ?_⟩
  · rw [splitOutputs, List.length_map, hcount]
  · rw [splitGo_numbers, hcount]
  · exact splitGo_middle_sizes hL lines 1 [] (by simpa using hL)
  · intro p hp
    have h := splitGo_last_size hL lines 1 [] (by simpa using hL) (fun h => hne h.1) p hp
    simpa using h
  · rw [mergedContent, splitOutputs_sorted (by rw [hcount]; exact hK)]
    rw [splitOutputs, List.map_map]
    rw [show (Prod.snd ∘ fun c : Nat × List Str => (partName pre c.1, c.2.flatten))
      = fun c : Nat × List Str => c.2.flatten from rfl]
    rw [show ((splitGo L lines 1 []).map (fun c : Nat × List Str => c.2.flatten))
      = (((splitGo L lines 1 []).map Prod.snd).map (fun ls => ls.flatten)) from by
        rw [List.map_map]; rfl]
    rw [flatten_map_flatten, splitGo_flatten]
    simp

theorem split_merge_spec_witness :
    (splitOutputs 2 "f".data ["a\n".data, "b\n".data, "c\n".data]).length = 2 ∧
    mergedContent (splitOutputs 2 "f".data ["a\n".data, "b\n".data, "c\n".data])
      = "a\nb\nc\n".data :=
  ⟨(split_merge_spec 2 "f".data ["a\n".data, "b\n".data, "c\n".data]
      (by norm_num) (by decide) (by norm_num)).1,
   by
    have h := (split_merge_spec 2 "f".data ["a\n".data, "b\n".data, "c\n".data]
      (by norm_num) (by decide) (by norm_num)).2.2.2.2
    rw [h]
    decide⟩

/-- `split_text_file` raises `FileNotFoundError` exactly when the input path
does not exist — and in that case it has performed no side effect; on an I/O
failure while writing line `k`, it returns the empty manifest and the disk
keeps exactly the lines written before the failure (no rollback). -/
theorem split_text_file_errors :
    (∀ (L : Nat) (pre : Str) (cf : Bool) (stamp : Str) (failAt : Option Nat),
      split_text_file none L pre cf stamp failAt = (.raisedFileNotFound, [], false)) ∧
    (∀ (lines : List Str) (L : Nat) (pre : Str) (cf : Bool) (stamp : Str)
      (failAt : Option Nat),
      (split_text_file (some lines) L pre cf stamp failAt).1 ≠ .raisedFileNotFound) ∧
    (∀ (lines : List Str) (L : Nat) (pre : Str) (cf : Bool) (stamp : Str) (k : Nat),
      k < lines.length →
      (split_text_file (some lines) L pre cf stamp (some k)).1 = .errEmpty ∧
      (((split_text_file (some lines) L pre cf stamp (some k)).2.1.map Prod.snd).flatten
        = lines.take k)) := by
  refine ⟨fun _ _ _ _ _ => rfl, ?_, ?_⟩
  · intro lines L pre cf stamp failAt
    rw [split_text_file]
    split <;> simp
  · intro lines L pre cf stamp k hk
    have h := splitIOGo_fail L pre k lines 1 0 [] (Nat.zero_le k) (by simpa using hk)
    rw [split_text_file]
    constructor
    · rw [if_neg (by rw [h.1]; simp)]
    · rw [if_neg (by rw [h.1]; simp)]
      have h2 := h.2
      simpa using h2

theorem split_text_file_errors_witness :
    (split_text_file (some ["a\n".data, "b\n".data, "c\n".data]) 2 "f".data true
      "t".data (some 1)).1 = .errEmpty ∧
    (((split_text_file (some ["a\n".data, "b\n".data, "c\n".data]) 2 "f".data true
      "t".data (some 1)).2.1.map Prod.snd).flatten = ["a\n".data]) :=
  split_text_file_errors.2.2 ["a\n".data, "b\n".data, "c\n".data] 2 "f".data true
    "t".data 1 (by norm_num)

/-- Splitting an existing empty file returns normally with an empty manifest,
writes no part files, and still creates the timestamped folder — so by its
manifest alone a successful empty split looks like the total-failure signal,
whose manifest is also empty. -/
theorem split_empty_file_spec (L : Nat) (pre stamp : Str) :
    split_text_file (some []) L pre true stamp none
      = (.ok [] (some (pre ++ "_split_".data ++ stamp)), [], true) ∧
    (split_text_file (some []) L pre true stamp none).2.1 =
      (split_text_file none L pre true stamp none).2.1 := by
  constructor <;> rfl

/-! ### Translation fallback chain (`translation_manager.py`) -/

/-- A translation backend: `none` models a raised exception. -/
abbrev Engine := Str → Option Str

/-- Python `s.endswith(' ')`. -/
def endsWithSpace (s : Str) : Bool := s.getLast? == some ' '

/-- `TextProtector.handle_separator_prefix_translation`: the text to
translate and whether a separator with a non-empty stripped suffix was
found. -/
def handle_separator_prefix_translation (text sep : Str) : Str × Bool :=
  match splitFirst sep text with
  | none => (text, false)
  | some (_, b) =>
    if pyStrip b = [] then (text, false) else (pyStrip b, true)

/-- `TextProtector.restore_separator_prefix_translation`: reattach the
translated suffix after the part up to and including the first separator,
inserting a space when the cut does not already end in one, and stripping
the result. -/
def restore_separator_prefix_translation (original t sep : Str) : Str :=
  match splitFirst sep original with
  | none => t
  | some (a, _) =>
    if endsWithSpace (a ++ sep) then pyStrip ((a ++ sep) ++ t)
    else pyStrip ((a ++ sep) ++ ' ' :: t)

/-- One engine attempt inside `TranslationEngine.translate` (the generic,
non-Gemini arm): in separator mode with the separator present, only the
stripped suffix is sent to the engine and the result is reattached; otherwise
the whole text is sent.  `none` models an exception escaping the engine. -/
def tryEngine (e : Engine) (sepMode : Bool) (sep text : Str) : Option Str :=
  if sepMode then
    match splitFirst sep text with
    | none => e text
    | some (a, b) =>
      if pyStrip b = [] then some text
      else
        match e (pyStrip b) with
        | none => none
        | some ts =>
          if ts ≠ [] ∧ ts ≠ pyStrip b then
            some (if endsWithSpace (a ++ sep) then pyStrip ((a ++ sep) ++ ts)
              else pyStrip ((a ++ sep) ++ ' ' :: ts))
          else some text
  else e text

/-- The engine loop of `TranslationEngine.translate`: try each engine; skip
it on an exception or when its result is empty or equal to the input; return
the first other result; fall back to the input text. -/
def translateGo (sepMode : Bool) (sep text : Str) : List Engine → Str
  | [] => text
  | e :: rest =>
    match tryEngine e sepMode sep text with
    | none => translateGo sepMode sep text rest
    | some r => if r ≠ [] ∧ r ≠ text then r else translateGo sepMode sep text rest

/-- `TranslationEngine.translate`: empty or all-whitespace text is returned
unchanged without consulting any engine; otherwise the fallback loop runs. -/
def translate (engines : List Engine) (sepMode : Bool) (sep text : Str) : Str :=
  if pyStrip text = [] then text else translateGo sepMode sep text engines

/-- The fallback chain in normal mode: engines that raise are skipped, the
first non-empty result different from the input is returned, and if every
engine raises or echoes the input the original text is returned.  (The text
must not be blank: blank text is returned unchanged before any engine
runs.) -/
theorem translate_fallback_spec :
    (∀ (pre : List Engine) (e : Engine) (rest : List Engine) (sep text r : Str),
      pyStrip text ≠ [] → (∀ f ∈ pre, f text = none) → e text = some r →
      r ≠ [] → r ≠ text →
      translate (pre ++ e :: rest) false sep text = r) ∧
    (∀ (engines : List Engine) (sep text : Str),
      (∀ f ∈ engines, f text = none ∨ f text = some text) →
      translate engines false sep text = text) := by
  constructor
  · intro pre e rest sep text r hblank hpre he hr1 hr2
    rw [translate, if_neg hblank]
    induction pre with
    | nil =>
      rw [List.nil_append, translateGo]
      rw [show tryEngine e false sep text = e text from rfl, he]
      simp only [ne_eq]
      rw [if_pos ⟨hr1, hr2⟩]
    | cons f pre' ih =>
      rw [List.cons_append, translateGo,
        show tryEngine f false sep text = f text from rfl,
        hpre f (List.mem_cons_self f pre')]
      exact ih (fun g hg => hpre g (List.mem_cons_of_mem f hg))
  · intro engines sep text hall
    rw [translate]
    split
    · rfl
    · induction engines with
      | nil => rfl
      | cons f rest ih =>
        rw [translateGo, show tryEngine f false sep text = f text from rfl]
        rcases hall f (List.mem_cons_self f rest) with h | h
        · rw [h]
          exact ih (fun g hg => hall g (List.mem_cons_of_mem f hg))
        · rw [h]
          simp only [ne_eq, not_true_eq_false, and_false, if_false]
          exact ih (fun g hg => hall g (List.mem_cons_of_mem f hg))

theorem translate_fallback_spec_witness :
    translate [fun _ => none, fun _ => some "X".data] false ":".data "hi".data
        = "X".data ∧
    translate [fun _ => none] false ":".data "hi".data = "hi".data :=
  ⟨translate_fallback_spec.1 [fun _ => none] (fun _ => some "X".data) [] ":".data
      "hi".data "X".data (by decide) (by simp) rfl (by decide) (by decide),
   translate_fallback_spec.2 [fun _ => none] ":".data "hi".data (by simp)⟩

/-- Blank input defeats the fallback-chain contract: with no backends raising
and a backend returning a non-empty string different from the input, the
result is still the (blank) input, because the blank-text guard returns
before any backend is consulted. -/
theorem translate_blank_guard :
    translate [fun _ => some "X".data] false ":".data " ".data = " ".data ∧
    (" ".data : Str) ≠ "X".data ∧ ("X".data : Str) ≠ [] ∧
    (fun (_ : Str) => some "X".data) " ".data = some "X".data := by
  refine ⟨?_, by decide, by decide, rfl⟩
  rw [translate, if_pos (by decide)]

/-- Separator mode, corrected: when the separator occurs but the suffix
strips to nothing, every engine attempt yields the unchanged text, so the
original is returned no matter what the backends do; when the separator does
not occur, separator mode behaves exactly like normal mode — the whole text
is passed to the generic backends (it is *not* returned unchanged). -/
theorem tryEngine_no_sep {e : Engine} {sep text : Str}
    (h : splitFirst sep text = none) : tryEngine e true sep text = e text := by
  rw [tryEngine, if_pos rfl, h]

theorem tryEngine_empty_suffix {e : Engine} {sep text a b : Str}
    (h : splitFirst sep text = some (a, b)) (hb : pyStrip b = []) :
    tryEngine e true sep text = some text := by
  rw [tryEngine, if_pos rfl, h]
  simp [hb]

theorem translate_sep_mode_spec :
    (∀ (engines : List Engine) (sep text a b : Str),
      splitFirst sep text = some (a, b) → pyStrip b = [] →
      translate engines true sep text = text) ∧
    (∀ (engines : List Engine) (sep text : Str),
      splitFirst sep text = none →
      translate engines true sep text = translate engines false sep text) := by
  constructor
  · intro engines sep text a b hsf hb
    rw [translate]
    split
    · rfl
    · induction engines with
      | nil => rfl
      | cons e rest ih =>
        rw [translateGo, tryEngine_empty_suffix hsf hb]
        simp only [ne_eq, not_true_eq_false, and_false, if_false]
        exact ih
  · intro engines sep text hsf
    rw [translate, translate]
    split
    · rfl
    · induction engines with
      | nil => rfl
      | cons e rest ih =>
        rw [translateGo, translateGo, tryEngine_no_sep hsf,
          show tryEngine e false sep text = e text from rfl]
        cases he : e text with
        | none => exact ih
        | some r =>
          simp only []
          split
          · rfl
          · exact ih

theorem translate_sep_mode_spec_witness :
    translate [fun _ => some "X".data] true ":".data "a: ".data = "a: ".data ∧
    translate [fun _ => some "X".data] true ":".data "ab".data
      = translate [fun _ => some "X".data] false ":".data "ab".data :=
  ⟨translate_sep_mode_spec.1 [fun _ => some "X".data] ":".data "a: ".data
      "a".data " ".data (by decide) (by decide),
   translate_sep_mode_spec.2 [fun _ => some "X".data] ":".data "ab".data (by decide)⟩

/-- Counterexample to "no separator ⟹ returned unchanged, nothing sent to a
backend": in separator mode, text without the separator is passed whole to
the generic fallback backend, whose output is returned. -/
theorem translate_sep_mode_whole_text :
    translate [fun _ => some "X".data] true ":".data "hello".data = "X".data ∧
    ("X".data : Str) ≠ "hello".data := by
  constructor
  · decide
  · decide

theorem dropWhile_head_false {p : Char → Bool} :
    ∀ {l : Str}, (∀ c, l.head? = some c → p c = false) → l.dropWhile p = l := by
  intro l h
  cases l with
  | nil => rfl
  | cons c l' =>
    rw [List.dropWhile_cons, if_neg (by simp [h c rfl])]

/-- Stripping `x ++ y` keeps `x` intact whenever `x` neither starts nor ends
with whitespace. -/
theorem pyStrip_head_anchor {x : Str} (y : Str)
    (hh : ∀ c, x.head? = some c → isPySpace c = false)
    (hl : ∀ c, x.getLast? = some c → isPySpace c = false) :
    ∃ y', pyStrip (x ++ y) = x ++ y' := by
  cases x with
  | nil => exact ⟨pyStrip y, by simp⟩
  | cons c x' =>
    rw [pyStrip, List.cons_append, List.dropWhile_cons,
      if_neg (by simp [hh c rfl]), ← List.cons_append, List.reverse_append]
    rw [List.dropWhile_append]
    by_cases hz : (y.reverse.dropWhile isPySpace).isEmpty
    · rw [if_pos hz]
      rw [dropWhile_head_false (by
        intro d hd
        apply hl
        rwa [← List.head?_reverse])]
      exact ⟨[], by simp⟩
    · rw [if_neg hz]
      refine ⟨(y.reverse.dropWhile isPySpace).reverse, ?_⟩
      rw [List.reverse_append, List.reverse_reverse]

theorem translateGo_step_some {sepMode : Bool} {sep text : Str} {e : Engine}
    {rest : List Engine} {r : Str} (h : tryEngine e sepMode sep text = some r) :
    translateGo sepMode sep text (e :: rest)
      = if r ≠ [] ∧ r ≠ text then r else translateGo sepMode sep text rest := by
  rw [translateGo, h]

theorem translateGo_step_none {sepMode : Bool} {sep text : Str} {e : Engine}
    {rest : List Engine} (h : tryEngine e sepMode sep text = none) :
    translateGo sepMode sep text (e :: rest) = translateGo sepMode sep text rest := by
  rw [translateGo, h]

theorem tryEngine_sep_cases {e : Engine} {sep text a b : Str}
    (hsf : splitFirst sep text = some (a, b)) (hb : ¬ pyStrip b = []) :
    tryEngine e true sep text = some text ∨
    tryEngine e true sep text = none ∨
    ∃ ts, tryEngine e true sep text
      = some (if endsWithSpace (a ++ sep) then pyStrip ((a ++ sep) ++ ts)
          else pyStrip ((a ++ sep) ++ ' ' :: ts)) := by
  have hred : tryEngine e true sep text
      = if pyStrip b = [] then some text
        else match e (pyStrip b) with
          | none => none
          | some ts =>
            if ts ≠ [] ∧ ts ≠ pyStrip b then
              some (if endsWithSpace (a ++ sep) then pyStrip ((a ++ sep) ++ ts)
                else pyStrip ((a ++ sep) ++ ' ' :: ts))
            else some text := by
    rw [tryEngine, if_pos rfl, hsf]
  rw [hred, if_neg hb]
  cases he : e (pyStrip b) with
  | none =>
    refine Or.inr (Or.inl ?_)
    simp only [he]
  | some ts =>
    by_cases hts : ts ≠ [] ∧ ts ≠ pyStrip b
    · refine Or.inr (Or.inr ⟨ts, ?_⟩)
      simp only [he]
      rw [if_pos hts]
    · refine Or.inl ?_
      simp only [he]
      rw [if_neg hts]

/-- In separator mode with a non-empty suffix, the returned text always
starts with the byte-identical `PREFIX ++ SEP` part — provided that part
neither begins nor ends with whitespace (the final `.strip()` would remove
such characters). -/
theorem translate_sep_preserves_head (engines : List Engine) (sep text a b : Str)
    (hsf : splitFirst sep text = some (a, b))
    (hh : ∀ c, (a ++ sep).head? = some c → isPySpace c = false)
    (hl : ∀ c, (a ++ sep).getLast? = some c → isPySpace c = false) :
    ∃ t, translate engines true sep text = (a ++ sep) ++ t := by
  have htext : text = (a ++ sep) ++ b := by
    have h := splitFirst_sound hsf
    rw [h, List.append_assoc]
  rw [translate]
  split
  · exact ⟨b, htext⟩
  · induction engines with
    | nil => exact ⟨b, htext⟩
    | cons e rest ih =>
      by_cases hb : pyStrip b = []
      · rw [translateGo_step_some (tryEngine_empty_suffix hsf hb)]
        simp only [ne_eq, not_true_eq_false, and_false, if_false]
        exact ih
      · rcases @tryEngine_sep_cases e sep text a b hsf hb with hc | hc | ⟨ts, hc⟩
        · rw [translateGo_step_some hc]
          simp only [ne_eq, not_true_eq_false, and_false, if_false]
          exact ih
        · rw [translateGo_step_none hc]
          exact ih
        · obtain ⟨y', hy'⟩ : ∃ y', (if endsWithSpace (a ++ sep) = true
              then pyStrip ((a ++ sep) ++ ts) else pyStrip ((a ++ sep) ++ ' ' :: ts))
              = (a ++ sep) ++ y' := by
            split
            · exact pyStrip_head_anchor ts hh hl
            · exact pyStrip_head_anchor (' ' :: ts) hh hl
          rw [translateGo_step_some hc, hy']
          split
          · exact ⟨y', rfl⟩
          · exact ih

theorem translate_sep_preserves_head_witness :
    ∃ t, translate [fun _ => some "X".data] true ":".data "Cook_1: Rice".data
      = "Cook_1:".data ++ t :=
  translate_sep_preserves_head [fun _ => some "X".data] ":".data
    "Cook_1: Rice".data "Cook_1".data " Rice".data (by decide)
    (fun c hc => by
      have h : c = 'C' := Option.some.inj hc.symm
      subst h
      decide)
    (fun c hc => by
      have h : c = ':' := Option.some.inj ((by decide :
        (("Cook_1".data ++ ":".data : Str)).getLast? = some ':') ▸ hc).symm
      subst h
      decide)

/-- Counterexample to byte-identical preservation of `PREFIX<SEP>`: a prefix
that begins with whitespace loses it to the final `.strip()`. -/
theorem translate_sep_head_stripped :
    translate [fun _ => some "X".data] true ":".data " a: b".data = "a: X".data ∧
    ¬ ∃ t, translate [fun _ => some "X".data] true ":".data " a: b".data
      = " a:".data ++ t := by
  have h1 : translate [fun _ => some "X".data] true ":".data " a: b".data
      = "a: X".data := by decide
  refine ⟨h1, ?_⟩
  rintro ⟨t, ht⟩
  rw [h1] at ht
  have hh := congrArg List.head? ht
  rw [show (("a: X".data : Str)).head? = some 'a' from rfl,
    show ((" a:".data ++ t : Str)).head? = some ' ' from rfl] at hh
  exact absurd (Option.some.inj hh) (by decide)

/-! ### Pagination helpers (`utils.py`) -/

/-- `calculate_pagination`: non-positive inputs give no pages; otherwise the
page count is the ceiling of `total_items / items_per_page` and the page
numbers run from 1 to that count. -/
def calculate_pagination (total ipp : Int) : Nat × List Nat :=
  if total ≤ 0 ∨ ipp ≤ 0 then (0, [])
  else
    let tp := ((total + ipp - 1) / ipp).toNat
    (tp, List.range' 1 tp)

/-- `get_page_items`: the `items[start:end]` slice for a 1-based page, or
`[]` for non-positive page number or page size. -/
def get_page_items (items : List α) (page ipp : Int) : List α :=
  if page ≤ 0 ∨ ipp ≤ 0 then []
  else (items.drop ((page - 1) * ipp).toNat).take ipp.toNat

theorem get_page_items_nat (items : List α) (p ipp : Nat) (hp : 0 < p)
    (hipp : 0 < ipp) :
    get_page_items items (p : Int) (ipp : Int)
      = (items.drop ((p - 1) * ipp)).take ipp := by
  rw [get_page_items, if_neg (by omega)]
  have e1 : ((p : Int) - 1) * (ipp : Int) = (((p - 1) * ipp : Nat) : Int) := by
    have : ((p : Int) - 1) = (((p - 1 : Nat)) : Int) := by omega
    rw [this]
    push_cast
    ring
  rw [e1, Int.toNat_ofNat, Int.toNat_ofNat]

theorem calculate_pagination_nat (len ipp : Nat) (hipp : 0 < ipp) :
    (calculate_pagination (len : Int) (ipp : Int)).1 = (len + ipp - 1) / ipp := by
  by_cases hlen : len = 0
  · subst hlen
    rw [calculate_pagination, if_pos (by norm_num), Nat.div_eq_of_lt (by omega)]
  · rw [calculate_pagination, if_neg (by omega)]
    have e1 : (len : Int) + (ipp : Int) - 1 = ((len + ipp - 1 : Nat) : Int) := by omega
    show ((((len : Int) + (ipp : Int) - 1) / (ipp : Int)).toNat) = _
    rw [e1, ← Int.ofNat_ediv, Int.toNat_ofNat]

theorem range'_shift : ∀ (n s : Nat), List.range' (s + 1) n = (List.range' s n).map (· + 1) := by
  intro n
  induction n with
  | zero => intro s; rfl
  | succ m ih =>
    intro s
    rw [List.range'_succ, List.range'_succ, List.map_cons, ← ih (s + 1)]

theorem pagination_join {α : Type} (ipp : Nat) (hipp : 0 < ipp) :
    ∀ (n : Nat) (items : List α), items.length = n →
    ((List.range' 1 ((items.length + ipp - 1) / ipp)).map
      (fun p => (items.drop ((p - 1) * ipp)).take ipp)).flatten = items := by
  intro n
  induction n using Nat.strong_induction_on with
  | _ n ih =>
    intro items hn
    cases items with
    | nil =>
      rw [show (([] : List α).length + ipp - 1) / ipp = 0 from by
        simp only [List.length_nil, Nat.zero_add]
        exact Nat.div_eq_of_lt (by omega)]
      rfl
    | cons x xs =>
      have hlen : (x :: xs).length = xs.length + 1 := rfl
      have hK : ((x :: xs).length + ipp - 1) / ipp
          = ((x :: xs).length - ipp + ipp - 1) / ipp + 1 := by
        rcases Nat.lt_or_ge (x :: xs).length ipp with h | h
        · have h1 : ((x :: xs).length + ipp - 1) / ipp = 1 :=
            Nat.div_eq_of_lt_le (by simp only [hlen]; omega) (by simp only [hlen]; omega)
          have h2 : ((x :: xs).length - ipp + ipp - 1) / ipp = 0 :=
            Nat.div_eq_of_lt (by omega)
          omega
        · have h1 : (x :: xs).length + ipp - 1 = ((x :: xs).length - 1) + ipp := by omega
          have h2 : (x :: xs).length - ipp + ipp - 1 = (x :: xs).length - 1 := by omega
          rw [h1, h2, Nat.add_div_right _ hipp]
      rw [hK, List.range'_succ, List.map_cons, List.flatten_cons]
      have hfirst : ((x :: xs).drop ((1 - 1) * ipp)).take ipp = (x :: xs).take ipp := by
        norm_num
      rw [hfirst]
      have hshift : (List.range' 2 (((x :: xs).length - ipp + ipp - 1) / ipp)).map
            (fun p => ((x :: xs).drop ((p - 1) * ipp)).take ipp)
          = (List.range' 1 (((x :: xs).length - ipp + ipp - 1) / ipp)).map
            (fun p => (((x :: xs).drop ipp).drop ((p - 1) * ipp)).take ipp) := by
        rw [show (2 : Nat) = 1 + 1 from rfl, range'_shift, List.map_map]
        apply List.map_congr_left
        intro p hp
        have hp1 : 1 ≤ p := (List.mem_range'_1.mp hp).1
        obtain ⟨q, rfl⟩ : ∃ q, p = q + 1 := ⟨p - 1, by omega⟩
        have harith : (q + 1 + 1 - 1) * ipp = (q + 1 - 1) * ipp + ipp := by
          simp only [Nat.add_sub_cancel]
          ring
        simp only [Function.comp, List.drop_drop, harith]
        rw [Nat.add_comm]
      rw [hshift]
      have hdroplen : ((x :: xs).drop ipp).length = (x :: xs).length - ipp := by
        simp
      by_cases hz : (x :: xs).length ≤ ipp
      · have : (x :: xs).drop ipp = [] := List.drop_eq_nil_of_le hz
        rw [this]
        have : ((x :: xs).length - ipp + ipp - 1) / ipp = 0 :=
          Nat.div_eq_of_lt (by omega)
        rw [this]
        simp
        omega
      · have hrec := ih (((x :: xs).drop ipp).length)
          (by simp only [hdroplen, hlen]; omega) ((x :: xs).drop ipp) rfl
        rw [hdroplen] at hrec
        rw [hrec, List.take_append_drop]

/-- C8: for every item list and every positive page size, the page slices for
pages `1..total_pages` (as computed by `calculate_pagination`) concatenate back
to the item list, their lengths sum to the total item count, distinct pages
draw from disjoint index windows, and `get_page_items` returns `[]` (without
raising) for a non-positive page number or page size or a page number beyond
the available pages. -/
theorem pagination_spec {α : Type} (items : List α) (ipp : Nat) (hipp : 0 < ipp) :
    ((List.range' 1 (calculate_pagination (items.length : Int) (ipp : Int)).1).map
      (fun p : Nat => get_page_items items ((p : Nat) : Int) (ipp : Int))).flatten = items ∧
    ((List.range' 1 (calculate_pagination (items.length : Int) (ipp : Int)).1).map
      (fun p : Nat => (get_page_items items ((p : Nat) : Int) (ipp : Int)).length)).sum
      = items.length ∧
    (∀ p q : Nat, 1 ≤ p → p < q →
      (p - 1) * ipp + (get_page_items items (p : Int) (ipp : Int)).length
        ≤ (q - 1) * ipp) ∧
    (∀ page ipp' : Int, page ≤ 0 ∨ ipp' ≤ 0 →
      get_page_items items page ipp' = []) ∧
    (∀ page : Int,
      ((calculate_pagination (items.length : Int) (ipp : Int)).1 : Int) < page →
      get_page_items items page (ipp : Int) = []) := by
  have hcp := calculate_pagination_nat items.length ipp hipp
  have hflat :
      ((List.range' 1 (calculate_pagination (items.length : Int) (ipp : Int)).1).map
        (fun p : Nat => get_page_items items ((p : Nat) : Int) (ipp : Int))).flatten = items := by
    rw [hcp]
    rw [List.map_congr_left (fun p hp =>
      get_page_items_nat items p ipp (List.mem_range'_1.mp hp).1 hipp)]
    exact pagination_join ipp hipp items.length items rfl
  refine ⟨hflat, ?_, ?_, ?_, ?_⟩
  · rw [show (fun p : Nat => (get_page_items items ((p : Nat) : Int) (ipp : Int)).length)
        = (List.length ∘ fun p : Nat => get_page_items items ((p : Nat) : Int) (ipp : Int)) from rfl]
    rw [← List.map_map, ← List.length_flatten, hflat]
  · intro p q hp hpq
    have hlen : (get_page_items items (p : Int) (ipp : Int)).length ≤ ipp := by
      rw [get_page_items_nat items p ipp hp hipp]
      exact List.length_take_le _ _
    have hmul := Nat.mul_le_mul_right ipp (show p ≤ q - 1 by omega)
    have hsplit : (p - 1) * ipp + ipp = p * ipp := by
      have h1 : p - 1 + 1 = p := by omega
      calc (p - 1) * ipp + ipp = ((p - 1) + 1) * ipp := by ring
        _ = p * ipp := by rw [h1]
    omega
  · intro page ipp' h
    simp only [get_page_items, if_pos h]
  · intro page hlt
    rw [hcp] at hlt
    have hpage : page = ((page.toNat : Nat) : Int) := by omega
    have hp1 : 1 ≤ page.toNat := by omega
    rw [hpage, get_page_items_nat items page.toNat ipp hp1 hipp]
    have hbound : items.length ≤ (page.toNat - 1) * ipp := by
      have hdm := Nat.div_add_mod (items.length + ipp - 1) ipp
      have hr := Nat.mod_lt (items.length + ipp - 1) hipp
      have hceil : items.length ≤ ipp * ((items.length + ipp - 1) / ipp) := by omega
      have htp : (items.length + ipp - 1) / ipp ≤ page.toNat - 1 := by omega
      have hmul := Nat.mul_le_mul_right ipp htp
      have hcomm : (items.length + ipp - 1) / ipp * ipp
          = ipp * ((items.length + ipp - 1) / ipp) := Nat.mul_comm _ _
      omega
    rw [List.drop_eq_nil_of_le hbound, List.take_nil]

theorem pagination_spec_witness :
    0 < 2 ∧
    ((List.range' 1
        (calculate_pagination ((['a', 'b', 'c'] : List Char).length : Int)
          ((2 : Nat) : Int)).1).map
      (fun p : Nat => get_page_items (['a', 'b', 'c'] : List Char) ((p : Nat) : Int)
        ((2 : Nat) : Int))).flatten = ['a', 'b', 'c'] :=
  ⟨by decide, (pagination_spec ['a', 'b', 'c'] 2 (by decide)).1⟩

/-! ### `TranslationData` (`translation_manager.py`) -/

/-- One entry of `TranslationData.lines`. -/
structure TLine where
  line_number : Nat
  original : Str
  translated : Str
  is_translated : Bool
  status : Str
  skip_translation : Bool
deriving DecidableEq

/-- `load_from_file`: each raw line becomes a fresh pending entry. -/
def load_from_file (raw : List Str) : List TLine :=
  raw.enum.map (fun p =>
    { line_number := p.1 + 1
      original := rstripNL p.2
      translated := []
      is_translated := false
      status := "pending".data
      skip_translation := false })

/-- In-place update of the element at one index, as mutation of
`self.lines[line_index]` does. -/
def updateAt (f : α → α) : Nat → List α → List α
  | _, [] => []
  | 0, x :: xs => f x :: xs
  | n + 1, x :: xs => x :: updateAt f n xs

/-- `translate_line`: guarded index update; `is_translated` is
`bool(translated_text.strip())`. -/
def translate_line (lines : List TLine) (idx : Int) (t : Str) :
    List TLine × Bool :=
  if 0 ≤ idx ∧ idx < lines.length then
    (updateAt (fun l =>
      { l with translated := t
               is_translated := decide (pyStrip t ≠ [])
               status := if pyStrip t ≠ [] then "completed".data
                 else "pending".data }) idx.toNat lines, true)
  else (lines, false)

/-- `toggle_skip_translation`: guarded index update flipping the skip flag and
recomputing `status`. -/
def toggle_skip_translation (lines : List TLine) (idx : Int) :
    List TLine × Bool :=
  if 0 ≤ idx ∧ idx < lines.length then
    (updateAt (fun l =>
      let ns := !l.skip_translation
      { l with skip_translation := ns
               status := if ns then "skipped".data
                 else if l.is_translated then "completed".data
                 else "pending".data }) idx.toNat lines, true)
  else (lines, false)

/-- The operations a caller can run against a `TranslationData`. A failed
`load_from_file` (invalid path or read error) leaves `self.lines` untouched. -/
inductive DataOp where
  | load (raw : List Str)
  | loadFail
  | tr (idx : Int) (t : Str)
  | toggle (idx : Int)

def applyOp (lines : List TLine) : DataOp → List TLine
  | .load raw => load_from_file raw
  | .loadFail => lines
  | .tr idx t => (translate_line lines idx t).1
  | .toggle idx => (toggle_skip_translation lines idx).1

def runOps (ops : List DataOp) : List TLine := ops.foldl applyOp []

/-- The C9 per-line invariant. -/
def lineInv (l : TLine) : Prop := l.is_translated = true ↔ pyStrip l.translated ≠ []

theorem mem_updateAt {f : α → α} :
    ∀ (n : Nat) (l : List α) (x : α), x ∈ updateAt f n l →
      x ∈ l ∨ ∃ y ∈ l, x = f y := by
  intro n
  induction n with
  | zero =>
    intro l x hx
    cases l with
    | nil => exact Or.inl hx
    | cons a as =>
      rcases List.mem_cons.mp hx with h | h
      · exact Or.inr ⟨a, List.mem_cons_self a as, h⟩
      · exact Or.inl (List.mem_cons_of_mem a h)
  | succ m ih =>
    intro l x hx
    cases l with
    | nil => exact Or.inl hx
    | cons a as =>
      rcases List.mem_cons.mp hx with h | h
      · exact Or.inl (h ▸ List.mem_cons_self a as)
      · rcases ih as x h with h2 | ⟨y, hy, hxy⟩
        · exact Or.inl (List.mem_cons_of_mem a h2)
        · exact Or.inr ⟨y, List.mem_cons_of_mem a hy, hxy⟩

theorem applyOp_inv {lines : List TLine} (hinv : ∀ l ∈ lines, lineInv l)
    (op : DataOp) : ∀ l ∈ applyOp lines op, lineInv l := by
  cases op with
  | load raw =>
    intro l hl
    rcases List.mem_map.mp hl with ⟨p, _, hp⟩
    rw [← hp]
    exact ⟨fun h => absurd h (by simp), fun h => absurd rfl h⟩
  | loadFail => exact hinv
  | tr idx t =>
    intro l hl
    rw [applyOp, translate_line] at hl
    split at hl
    · rcases mem_updateAt idx.toNat lines l hl with h | ⟨y, hy, hxy⟩
      · exact hinv l h
      · rw [hxy]
        by_cases hs : pyStrip t ≠ []
        · exact ⟨fun _ => hs, fun _ => by simp [hs]⟩
        · refine ⟨fun h => ?_, fun h => absurd h hs⟩
          rw [show (decide (pyStrip t ≠ []) : Bool) = false by simp [hs]] at h
          exact absurd h (by simp)
    · exact hinv l hl
  | toggle idx =>
    intro l hl
    rw [applyOp, toggle_skip_translation] at hl
    split at hl
    · rcases mem_updateAt idx.toNat lines l hl with h | ⟨y, hy, hxy⟩
      · exact hinv l h
      · rw [hxy]
        exact hinv y hy
    · exact hinv l hl

/-- C9: after any sequence of `TranslationData` operations starting from the
fresh empty state, every line's `is_translated` flag is `true` iff its
translated text is non-empty after stripping whitespace. -/
theorem translation_data_invariant (ops : List DataOp) :
    ∀ l ∈ runOps ops, l.is_translated = true ↔ pyStrip l.translated ≠ [] := by
  suffices h : ∀ (ops : List DataOp) (start : List TLine),
      (∀ l ∈ start, lineInv l) → ∀ l ∈ ops.foldl applyOp start, lineInv l from
    h ops [] (by intro l hl; cases hl)
  intro ops
  induction ops with
  | nil => intro start hs; exact hs
  | cons op rest ih =>
    intro start hs
    exact ih (applyOp start op) (applyOp_inv hs op)

theorem translation_data_invariant_witness :
    (⟨1, "hi".data, [], false, "pending".data, false⟩ : TLine) ∈
      runOps [DataOp.load ["hi".data]] ∧
    ((⟨1, "hi".data, [], false, "pending".data, false⟩ : TLine).is_translated = true
      ↔ pyStrip (⟨1, "hi".data, [], false, "pending".data, false⟩ : TLine).translated
        ≠ []) :=
  ⟨by decide, translation_data_invariant [DataOp.load ["hi".data]] _ (by decide)⟩

/-! ### `merge_text_files` error handling and output-name derivation -/

theorem not_occursIn_nil {k : Str} (hk : k ≠ []) : ¬ occursIn k [] := by
  rintro ⟨a, b, h⟩
  have hlen := congrArg List.length h
  simp only [List.length_nil, List.length_append] at hlen
  exact hk (List.length_eq_zero.mp (by omega))

theorem replaceAll_single {k v s a b : Str} (hk : k ≠ [])
    (hsf : splitFirst k s = some (a, b)) (hb : ¬ occursIn k b) :
    replaceAll k v s = a ++ v ++ b := by
  rw [replaceAll, if_neg (by simpa using hk)]
  cases hlen : s.length with
  | zero =>
    have : s = [] := List.length_eq_zero.mp hlen
    subst this
    rw [splitFirst] at hsf
    rw [if_neg (by simpa using hk)] at hsf
    cases hsf
  | succ m =>
    rw [replaceAllGo, hsf]
    show a ++ v ++ replaceAllGo k v (m + 1) b = a ++ v ++ b
    rw [replaceAllGo_of_not_occurs _ hb]

/-- C7: `merge_text_files` raises `FileNotFoundError` exactly when the glob
matched no file; when no output path is given and the pattern is
`base ++ "_part_*.txt"` with no other `*` in `base`, the default output name
is `base ++ "_merged.txt"`; and when the given output path is an existing
directory the file placed inside it is named by `dirCaseName` — the
basename-based rule of the code, not the default-derivation rule. -/
theorem merge_text_files_spec (files : List (Str × Str)) (pat : Str)
    (output : Option Str) (isDir : Str → Bool) :
    (merge_text_files files pat output isDir = .error () ↔ files = []) ∧
    (∀ base : Str, splitFirst "_part_*.txt".data pat = some (base, []) →
      ¬ occursIn "*".data base → files ≠ [] →
      isDir (base ++ "_merged.txt".data) = false →
      merge_text_files files pat none isDir
        = .ok (base ++ "_merged.txt".data, mergedContent files)) ∧
    (∀ o : Str, files ≠ [] → isDir o = true →
      merge_text_files files pat (some o) isDir
        = .ok (o ++ "/".data ++ dirCaseName pat, mergedContent files)) := by
  refine ⟨?_, ?_, ?_⟩
  · rw [merge_text_files]
    constructor
    · intro h
      by_cases he : files.isEmpty
      · exact List.isEmpty_iff.mp he
      · rw [if_neg he] at h
        cases h
    · intro h
      rw [if_pos (by simp [h])]
  · intro base hsf hocc hne hdir
    have hderived : derivedDefaultName pat = base ++ "_merged.txt".data := by
      rw [derivedDefaultName,
        replaceAll_single (by decide) hsf (not_occursIn_nil (by decide))]
      simp only [List.append_nil]
      rw [replaceAll_of_not_occurs hocc]
    rw [merge_text_files, if_neg (by simpa using hne), resolveOutputName]
    simp only [hderived, hdir, Bool.false_eq_true, if_false]
  · intro o hne hdir
    rw [merge_text_files, if_neg (by simpa using hne), resolveOutputName]
    simp only [hdir, if_true]

theorem merge_text_files_spec_witness :
    (splitFirst "_part_*.txt".data "data_part_*.txt".data
        = some ("data".data, []) ∧
      ¬ occursIn "*".data "data".data ∧
      ([(("a".data : Str), ("x".data : Str))] : List (Str × Str)) ≠ []) ∧
    merge_text_files [("a".data, "x".data)] "data_part_*.txt".data none
        (fun _ => false)
      = .ok ("data".data ++ "_merged.txt".data,
          mergedContent [("a".data, "x".data)]) :=
  ⟨⟨by decide, by decide, by decide⟩,
    (merge_text_files_spec [("a".data, "x".data)] "data_part_*.txt".data none
      (fun _ => false)).2.1 "data".data (by decide) (by decide) (by decide)
      (by decide)⟩

/-- Counterexample to "the same derivation rule" in the directory case: for
the pattern `data_part_*.txt` the default rule yields `data_merged.txt` but
the directory-case rule yields `data_part_merged_merged.txt`, so a merge into
an existing directory uses a different name than the default derivation. -/
theorem merge_dir_name_differs :
    derivedDefaultName "data_part_*.txt".data = "data_merged.txt".data ∧
    dirCaseName "data_part_*.txt".data = "data_part_merged_merged.txt".data ∧
    dirCaseName "data_part_*.txt".data ≠ derivedDefaultName "data_part_*.txt".data ∧
    merge_text_files [("a".data, "x".data)] "data_part_*.txt".data
        (some "out".data) (fun s => s == "out".data)
      = .ok ("out/data_part_merged_merged.txt".data, "x".data) := by
  exact ⟨by decide, by decide, by decide, by rfl⟩

/-! ### `TextProtector` (`ai_translator.py`)

`protect_text` walks the enabled patterns, replacing each regex match by
`§PROTECTED_<counter>§` (the counter is global across patterns) and recording
`placeholder ↦ match` pairs in insertion order; `restore_text` walks the
recorded pairs in the same order and `str.replace`s each placeholder by its
original text.  A regex engine is abstracted as a `Matcher`: a function
returning the first match as a `(before, match, after)` split, together with
the soundness of that split. -/

/-- The placeholder tag between the `§` delimiters. -/
def protTag : Str := "PROTECTED_".data

/-- `f"{self.placeholder_prefix}{placeholder_counter}{self.placeholder_suffix}"`. -/
def placeholder (n : Nat) : Str := "§PROTECTED_".data ++ natStr n ++ "§".data

/-- Body of a placeholder after the leading `§`. -/
def phBody (n : Nat) : Str := (protTag ++ natStr n) ++ ['§']

theorem placeholder_cons (n : Nat) : placeholder n = '§' :: phBody n := rfl

/-- Abstraction of `re.sub`'s pattern: `find` returns the first match of the
pattern as a `(before, match, after)` decomposition, and `sound` certifies
the decomposition (with a non-empty match, as for all patterns the code
uses). -/
structure Matcher where
  find : Str → Option (Str × Str × Str)
  sound : ∀ s a m b, find s = some (a, m, b) → s = a ++ m ++ b ∧ m ≠ []

/-- One `re.sub(pattern, replace_match, s)` call: replace every match of `M`
left to right by the next placeholder, returning the new text, the recorded
`(placeholder, match)` pairs and the final counter.  The fuel only bounds the
number of replacements; `s.length + 1` is always enough because matches are
non-empty. -/
def reSubGo (M : Matcher) : Nat → Nat → Str → Str × List (Str × Str) × Nat
  | 0, ctr, s => (s, [], ctr)
  | fuel + 1, ctr, s =>
    match M.find s with
    | none => (s, [], ctr)
    | some (a, m, b) =>
      let r := reSubGo M fuel (ctr + 1) b
      (a ++ placeholder (ctr + 1) ++ r.1, (placeholder (ctr + 1), m) :: r.2.1, r.2.2)

/-- The `for pattern_name in self.enabled_patterns` loop of `protect_text`,
threading the protected text, the placeholder dict and the counter. -/
def protectGo : Nat → List Matcher → Str → Str × List (Str × Str) × Nat
  | ctr, [], s => (s, [], ctr)
  | ctr, M :: rest, s =>
    let r := reSubGo M (s.length + 1) ctr s
    let r2 := protectGo r.2.2 rest r.1
    (r2.1, r.2.1 ++ r2.2.1, r2.2.2)

/-- `TextProtector.protect_text`: empty text or no enabled patterns short
circuits, otherwise the pattern loop runs from counter 0. -/
def protect_text (ms : List Matcher) (text : Str) : Str × List (Str × Str) :=
  if text.isEmpty || ms.isEmpty then (text, [])
  else
    ((protectGo 0 ms text).1, (protectGo 0 ms text).2.1)

/-- `TextProtector.restore_text`: empty text or no placeholders short
circuits, otherwise each recorded placeholder is `str.replace`d by its
original text, in insertion order. -/
def restore_text (t : Str) (phs : List (Str × Str)) : Str :=
  if t = [] ∨ phs = [] then t
  else phs.foldl (fun acc p => replaceAll p.1 p.2 acc) t

/-- Analysis view of a protected text: literal segments interleaved with
placeholder holes remembering the replaced match. -/
inductive Chunk where
  | seg (s : Str)
  | hole (n : Nat) (v : Str)

/-- The protected text: segments plus placeholder renderings. -/
def render : List Chunk → Str
  | [] => []
  | Chunk.seg s :: rest => s ++ render rest
  | Chunk.hole n _ :: rest => placeholder n ++ render rest

/-- The original text: segments plus the replaced matches. -/
def flat : List Chunk → Str
  | [] => []
  | Chunk.seg s :: rest => s ++ flat rest
  | Chunk.hole _ v :: rest => v ++ flat rest

/-- The recorded `(placeholder, match)` pairs, in order. -/
def phsOf : List Chunk → List (Str × Str)
  | [] => []
  | Chunk.seg _ :: rest => phsOf rest
  | Chunk.hole n v :: rest => (placeholder n, v) :: phsOf rest

def headNotSeg : List Chunk → Bool
  | Chunk.seg _ :: _ => false
  | _ => true

/-- No two adjacent literal segments (so after a segment the render continues
with a `§`, if at all). -/
def noAdjSegs : List Chunk → Bool
  | [] => true
  | Chunk.seg _ :: rest => headNotSeg rest && noAdjSegs rest
  | Chunk.hole _ _ :: rest => noAdjSegs rest

/-- Hole indices strictly increase and stay above `n`. -/
def holesInc (n : Nat) : List Chunk → Prop
  | [] => True
  | Chunk.seg _ :: rest => holesInc n rest
  | Chunk.hole j _ :: rest => n < j ∧ holesInc j rest

/-- The chunk decomposition produced by one `re.sub` pass. -/
def chunksGo (M : Matcher) : Nat → Nat → Str → List Chunk
  | 0, _, s => [Chunk.seg s]
  | fuel + 1, ctr, s =>
    match M.find s with
    | none => [Chunk.seg s]
    | some (a, m, b) =>
      Chunk.seg a :: Chunk.hole (ctr + 1) m :: chunksGo M fuel (ctr + 1) b

theorem reSubGo_eq (M : Matcher) : ∀ (fuel ctr : Nat) (s : Str),
    (reSubGo M fuel ctr s).1 = render (chunksGo M fuel ctr s) ∧
    (reSubGo M fuel ctr s).2.1 = phsOf (chunksGo M fuel ctr s) := by
  intro fuel
  induction fuel with
  | zero =>
    intro ctr s
    exact ⟨(List.append_nil s).symm, rfl⟩
  | succ f ih =>
    intro ctr s
    rw [reSubGo, chunksGo]
    cases hf : M.find s with
    | none => exact ⟨(List.append_nil s).symm, rfl⟩
    | some p =>
      rcases p with ⟨a, m, b⟩
      rcases ih (ctr + 1) b with ⟨h1, h2⟩
      constructor
      · show a ++ placeholder (ctr + 1) ++ (reSubGo M f (ctr + 1) b).1 = _
        rw [h1, render, render, List.append_assoc]
      · show (placeholder (ctr + 1), m) :: (reSubGo M f (ctr + 1) b).2.1 = _
        rw [h2, phsOf, phsOf]

theorem chunksGo_flat (M : Matcher) : ∀ (fuel ctr : Nat) (s : Str),
    flat (chunksGo M fuel ctr s) = s := by
  intro fuel
  induction fuel with
  | zero =>
    intro ctr s
    rw [chunksGo, flat, flat, List.append_nil]
  | succ f ih =>
    intro ctr s
    rw [chunksGo]
    cases hf : M.find s with
    | none => rw [flat, flat, List.append_nil]
    | some p =>
      rcases p with ⟨a, m, b⟩
      have hs := (M.sound s a m b hf).1
      rw [flat, flat, ih (ctr + 1) b, hs, List.append_assoc]

theorem chunksGo_seg_sub (M : Matcher) : ∀ (fuel ctr : Nat) (s s' : Str),
    Chunk.seg s' ∈ chunksGo M fuel ctr s → ∃ x y, s = (x ++ s') ++ y := by
  intro fuel
  induction fuel with
  | zero =>
    intro ctr s s' h
    rw [chunksGo] at h
    rcases List.mem_singleton.mp h with h'
    injection h' with h''
    exact ⟨[], [], by simp [h'']⟩
  | succ f ih =>
    intro ctr s s' h
    rw [chunksGo] at h
    cases hf : M.find s with
    | none =>
      rw [hf] at h
      rcases List.mem_singleton.mp h with h'
      injection h' with h''
      exact ⟨[], [], by simp [h'']⟩
    | some p =>
      rcases p with ⟨a, m, b⟩
      rw [hf] at h
      have hs := (M.sound s a m b hf).1
      rcases List.mem_cons.mp h with h1 | h1
      · injection h1 with h''
        exact ⟨[], m ++ b, by simp [← h'', hs, List.append_assoc]⟩
      · rcases List.mem_cons.mp h1 with h2 | h2
        · cases h2
        · rcases ih (ctr + 1) b s' h2 with ⟨x, y, hxy⟩
          refine ⟨(a ++ m) ++ x, y, ?_⟩
          rw [hs, hxy]
          simp [List.append_assoc]

theorem chunksGo_val_sub (M : Matcher) : ∀ (fuel ctr : Nat) (s : Str) (j : Nat)
    (v : Str), Chunk.hole j v ∈ chunksGo M fuel ctr s → ∃ x y, s = (x ++ v) ++ y := by
  intro fuel
  induction fuel with
  | zero =>
    intro ctr s j v h
    rw [chunksGo] at h
    rcases List.mem_singleton.mp h with h'
    cases h'
  | succ f ih =>
    intro ctr s j v h
    rw [chunksGo] at h
    cases hf : M.find s with
    | none =>
      rw [hf] at h
      rcases List.mem_singleton.mp h with h'
      cases h'
    | some p =>
      rcases p with ⟨a, m, b⟩
      rw [hf] at h
      have hs := (M.sound s a m b hf).1
      rcases List.mem_cons.mp h with h1 | h1
      · cases h1
      · rcases List.mem_cons.mp h1 with h2 | h2
        · injection h2 with hj hv
          exact ⟨a, b, by simp [← hv, hs]⟩
        · rcases ih (ctr + 1) b j v h2 with ⟨x, y, hxy⟩
          refine ⟨(a ++ m) ++ x, y, ?_⟩
          rw [hs, hxy]
          simp [List.append_assoc]

theorem chunksGo_adj (M : Matcher) : ∀ (fuel ctr : Nat) (s : Str),
    noAdjSegs (chunksGo M fuel ctr s) = true := by
  intro fuel
  induction fuel with
  | zero => intro ctr s; rfl
  | succ f ih =>
    intro ctr s
    rw [chunksGo]
    cases hf : M.find s with
    | none => rfl
    | some p =>
      rcases p with ⟨a, m, b⟩
      show (headNotSeg _ && noAdjSegs _) = true
      rw [Bool.and_eq_true]
      exact ⟨rfl, ih (ctr + 1) b⟩

theorem chunksGo_inc (M : Matcher) : ∀ (fuel ctr : Nat) (s : Str),
    holesInc ctr (chunksGo M fuel ctr s) := by
  intro fuel
  induction fuel with
  | zero => intro ctr s; trivial
  | succ f ih =>
    intro ctr s
    rw [chunksGo]
    cases hf : M.find s with
    | none => trivial
    | some p =>
      rcases p with ⟨a, m, b⟩
      exact ⟨Nat.lt_succ_self ctr, ih (ctr + 1) b⟩

theorem natStr_no_mark {n : Nat} : '§' ∉ natStr n := by
  intro h
  exact absurd (natStr_digits h) (by decide)

theorem no_mark_phBody_core {i : Nat} : '§' ∉ protTag ++ natStr i := by
  intro h
  rcases List.mem_append.mp h with h | h
  · exact absurd h (by decide)
  · exact natStr_no_mark h

/-- `splitFirst` locates `k` exactly after `P` when `k` starts with a
character that does not occur in `P`. -/
theorem splitFirst_exact {c0 : Char} {k : Str} (hk : ∃ t, k = c0 :: t) :
    ∀ (P R : Str), c0 ∉ P → splitFirst k ((P ++ k) ++ R) = some (P, R) := by
  intro P
  induction P with
  | nil =>
    intro R _
    rcases hk with ⟨t, hkt⟩
    have hsh : ([] ++ k) ++ R = c0 :: (t ++ R) := by rw [hkt]; rfl
    rw [hsh, splitFirst, if_pos (isPrefixOf_spec.mpr ⟨R, by rw [hkt]; rfl⟩)]
    have hd : (c0 :: (t ++ R)).drop k.length = R := by
      rw [show c0 :: (t ++ R) = k ++ R from by rw [hkt]; rfl, List.drop_left]
    rw [hd]
  | cons c P' ihP =>
    intro R hP
    have hc : c0 ≠ c := fun h => hP (h ▸ List.mem_cons_self c P')
    have hP' : c0 ∉ P' := fun h => hP (List.mem_cons_of_mem c h)
    have hsh : ((c :: P') ++ k) ++ R = c :: ((P' ++ k) ++ R) := by simp
    rw [hsh, splitFirst]
    rcases hk with ⟨t, hkt⟩
    rw [if_neg (by
      intro hpre
      rcases isPrefixOf_spec.mp hpre with ⟨w, hw⟩
      rw [hkt] at hw
      exact hc (List.cons.inj hw).1.symm)]
    rw [ihP R hP']

/-- Two marker-delimited strings agree on their marker-free parts. -/
theorem append_marker_inj {c0 : Char} : ∀ {a b x y : Str}, c0 ∉ a → c0 ∉ b →
    a ++ c0 :: x = b ++ c0 :: y → a = b ∧ x = y := by
  intro a
  induction a with
  | nil =>
    intro b x y _ hb h
    cases b with
    | nil =>
      refine ⟨rfl, ?_⟩
      simpa using h
    | cons d b' =>
      have hd := (List.cons.inj (by simpa using h)).1
      exact absurd (hd ▸ List.mem_cons_self d b') hb
  | cons e a' ih =>
    intro b x y ha hb h
    cases b with
    | nil =>
      have he := (List.cons.inj (by simpa using h)).1
      exact absurd (he ▸ List.mem_cons_self e a') ha
    | cons d b' =>
      have h1 := List.cons.inj (by simpa using h)
      have ha' : c0 ∉ a' := fun hm => ha (List.mem_cons_of_mem e hm)
      have hb' : c0 ∉ b' := fun hm => hb (List.mem_cons_of_mem d hm)
      rcases ih ha' hb' h1.2 with ⟨hab, hxy⟩
      exact ⟨by rw [h1.1, hab], hxy⟩

theorem placeholder_inj {m n : Nat} (h : placeholder m = placeholder n) : m = n := by
  rw [placeholder_cons, placeholder_cons] at h
  have h1 := (List.cons.inj h).2
  rw [phBody, phBody] at h1
  have h2 : (protTag ++ natStr m) ++ '§' :: [] = (protTag ++ natStr n) ++ '§' :: [] := h1
  rcases append_marker_inj no_mark_phBody_core no_mark_phBody_core h2 with ⟨h3, _⟩
  exact natStr_inj (List.append_cancel_left h3)

theorem holesInc_lt {C : List Chunk} : ∀ {n : Nat}, holesInc n C →
    ∀ j v, Chunk.hole j v ∈ C → n < j := by
  induction C with
  | nil => intro n _ j v h; cases h
  | cons c C' ih =>
    intro n hinc j v h
    cases c with
    | seg s =>
      rcases List.mem_cons.mp h with h1 | h1
      · cases h1
      · exact ih hinc j v h1
    | hole k w =>
      rcases hinc with ⟨hnk, hrest⟩
      rcases List.mem_cons.mp h with h1 | h1
      · injection h1 with h2 h3
        omega
      · exact Nat.lt_trans hnk (ih hrest j v h1)

/-- A protected render never begins with a bare `PROTECTED_<digits>§`:
that would need a segment that itself contains the tag. -/
theorem render_no_tag_head (i : Nat) (C : List Chunk)
    (hseg : ∀ s, Chunk.seg s ∈ C → '§' ∉ s)
    (hsegP : ∀ s, Chunk.seg s ∈ C → ¬ occursIn protTag s)
    (hadj : noAdjSegs C = true) :
    ∀ r, render C ≠ (protTag ++ natStr i) ++ '§' :: r := by
  intro r h
  cases C with
  | nil =>
    rw [render] at h
    have := congrArg List.length h
    simp only [List.length_nil, List.length_append, List.length_cons] at this
    omega
  | cons c C' =>
    cases c with
    | hole j v =>
      have hh := congrArg List.head? h
      rw [show (render (Chunk.hole j v :: C')).head? = some '§' from rfl,
        show (((protTag ++ natStr i) ++ '§' :: r)).head? = some 'P' from rfl] at hh
      exact absurd (Option.some.inj hh) (by decide)
    | seg s =>
      have hsS : '§' ∉ s := hseg s (List.mem_cons_self _ _)
      have hsP : ¬ occursIn protTag s := hsegP s (List.mem_cons_self _ _)
      have hD : '§' ∉ protTag ++ natStr i := no_mark_phBody_core
      rw [render] at h
      rcases List.append_eq_append_iff.mp h with ⟨w, hw1, hw2⟩ | ⟨w, hw1, hw2⟩
      · cases w with
        | nil =>
          rw [List.append_nil] at hw1
          exact hsP ⟨[], natStr i, by rw [← hw1]; rfl⟩
        | cons wc wt =>
          have hwc : wc ∈ protTag ++ natStr i := by
            rw [hw1]; exact List.mem_append_right s (List.mem_cons_self _ _)
          have hne : wc ≠ '§' := fun hx => hD (hx ▸ hwc)
          have hns : headNotSeg C' = true := by
            rw [noAdjSegs, Bool.and_eq_true] at hadj
            exact hadj.1
          cases C' with
          | nil => rw [render] at hw2; cases hw2
          | cons c2 C'' =>
            cases c2 with
            | seg s2 => rw [headNotSeg] at hns; cases hns
            | hole j2 v2 =>
              rw [render] at hw2
              have hh := congrArg List.head? hw2
              rw [show (placeholder j2 ++ render C'').head? = some '§' from rfl] at hh
              have : wc = '§' := by
                have := (Option.some.inj hh)
                simp only [List.head?_cons] at this ⊢
                exact this.symm ▸ rfl
              exact hne this
      · cases w with
        | nil =>
          rw [List.append_nil] at hw1
          exact hsP ⟨[], natStr i, by rw [hw1]; rfl⟩
        | cons wc wt =>
          have h1 := (List.cons.inj (by simpa using hw2)).1
          refine hsS ?_
          rw [hw1, ← h1]
          exact List.mem_append_right _ (List.mem_cons_self _ _)

/-- In a render whose holes all differ from `i`, the placeholder of `i`
does not occur: segments are `§`-free and tag-free, so any occurrence would
have to align with a hole of index `i`. -/
theorem render_no_ph (i : Nat) : ∀ (C : List Chunk),
    (∀ s, Chunk.seg s ∈ C → '§' ∉ s) →
    (∀ s, Chunk.seg s ∈ C → ¬ occursIn protTag s) →
    noAdjSegs C = true →
    (∀ j v, Chunk.hole j v ∈ C → j ≠ i) →
    ∀ u v', render C ≠ (u ++ placeholder i) ++ v' := by
  intro C
  induction C with
  | nil =>
    intro _ _ _ _ u v' h
    rw [render] at h
    have := congrArg List.length h
    rw [placeholder_cons] at this
    simp only [List.length_nil, List.length_append, List.length_cons] at this
    omega
  | cons c C' ih =>
    intro hseg hsegP hadj hne u v' h
    have hsegT : ∀ s, Chunk.seg s ∈ C' → '§' ∉ s :=
      fun s hs => hseg s (List.mem_cons_of_mem c hs)
    have hsegPT : ∀ s, Chunk.seg s ∈ C' → ¬ occursIn protTag s :=
      fun s hs => hsegP s (List.mem_cons_of_mem c hs)
    have hneT : ∀ j v, Chunk.hole j v ∈ C' → j ≠ i :=
      fun j v hjv => hne j v (List.mem_cons_of_mem c hjv)
    cases c with
    | seg s =>
      have hadjT : noAdjSegs C' = true := by
        rw [noAdjSegs, Bool.and_eq_true] at hadj
        exact hadj.2
      have hsS : '§' ∉ s := hseg s (List.mem_cons_self _ _)
      rw [render, List.append_assoc] at h
      rcases List.append_eq_append_iff.mp h with ⟨w, hw1, hw2⟩ | ⟨w, hw1, hw2⟩
      · rw [← List.append_assoc] at hw2
        exact ih hsegT hsegPT hadjT hneT w v' hw2
      · cases w with
        | nil =>
          refine ih hsegT hsegPT hadjT hneT [] v' ?_
          rw [List.nil_append]
          simpa using hw2.symm
        | cons wc wt =>
          have h1 : wc = '§' := by
            rw [placeholder_cons] at hw2
            exact ((List.cons.inj (by simpa using hw2)).1).symm
          refine hsS ?_
          rw [hw1, h1]
          exact List.mem_append_right _ (List.mem_cons_self _ _)
    | hole j m =>
      have hadjT : noAdjSegs C' = true := by
        rw [noAdjSegs] at hadj
        exact hadj
      rw [render, List.append_assoc] at h
      rcases List.append_eq_append_iff.mp h with ⟨w, hw1, hw2⟩ | ⟨w, hw1, hw2⟩
      · rw [← List.append_assoc] at hw2
        exact ih hsegT hsegPT hadjT hneT w v' hw2
      · cases w with
        | nil =>
          refine ih hsegT hsegPT hadjT hneT [] v' ?_
          rw [List.nil_append]
          simpa using hw2.symm
        | cons wc wt =>
          have hwc : wc = '§' := by
            rw [placeholder_cons] at hw2
            exact ((List.cons.inj (by simpa using hw2)).1).symm
          cases u with
          | nil =>
            rw [List.nil_append] at hw1
            rw [← hw1, placeholder_cons, placeholder_cons] at hw2
            have h2 : phBody i ++ v' = phBody j ++ render C' := by
              simpa using hw2
            rw [phBody, phBody] at h2
            have h3 : (protTag ++ natStr i) ++ '§' :: v'
                = (protTag ++ natStr j) ++ '§' :: render C' := by
              simpa [List.append_assoc] using h2
            rcases append_marker_inj no_mark_phBody_core no_mark_phBody_core h3 with
              ⟨h4, _⟩
            exact hne j m (List.mem_cons_self _ _)
              (natStr_inj (List.append_cancel_left h4)).symm
          | cons uc ut =>
            rw [placeholder_cons] at hw1
            have h1 : phBody j = ut ++ (wc :: wt) :=
              (List.cons.inj (by simpa using hw1)).2
            rw [phBody, hwc] at h1
            have hwt : wt = [] := by
              rcases List.append_eq_append_iff.mp h1 with ⟨t, _, ht2⟩ | ⟨t, ht1, ht2⟩
              · have hlen := congrArg List.length ht2
                simp only [List.length_cons, List.length_append,
                  List.length_nil] at hlen
                exact List.length_eq_zero.mp (by omega)
              · cases t with
                | nil => simpa using ht2
                | cons tc tt =>
                  have htc : tc = '§' :=
                    ((List.cons.inj (by simpa using ht2)).1).symm
                  have hmem : tc ∈ protTag ++ natStr j := by
                    rw [ht1]
                    exact List.mem_append_right ut (List.mem_cons_self _ _)
                  exact (no_mark_phBody_core (htc ▸ hmem)).elim
            subst hwt
            rw [placeholder_cons, hwc] at hw2
            have h5 : phBody i ++ v' = render C' := by simpa using hw2
            exact render_no_tag_head i C' hsegT hsegPT hadjT v' (by
              rw [← h5, phBody]
              simp [List.append_assoc])

theorem not_occursIn_render {i : Nat} {C : List Chunk}
    (hseg : ∀ s, Chunk.seg s ∈ C → '§' ∉ s)
    (hsegP : ∀ s, Chunk.seg s ∈ C → ¬ occursIn protTag s)
    (hadj : noAdjSegs C = true)
    (hne : ∀ j v, Chunk.hole j v ∈ C → j ≠ i) :
    ¬ occursIn (placeholder i) (render C) := by
  rintro ⟨a, b, hab⟩
  exact render_no_ph i C hseg hsegP hadj hne a b hab

/-- Replaying the recorded placeholders left to right peels the holes off the
render one by one. -/
theorem restore_fold : ∀ (C : List Chunk) (pre : Str) (n : Nat),
    (∀ s, Chunk.seg s ∈ C → '§' ∉ s) →
    (∀ s, Chunk.seg s ∈ C → ¬ occursIn protTag s) →
    (∀ j v, Chunk.hole j v ∈ C → '§' ∉ v) →
    noAdjSegs C = true → holesInc n C → '§' ∉ pre →
    List.foldl (fun acc p => replaceAll p.1 p.2 acc) (pre ++ render C) (phsOf C)
      = pre ++ flat C := by
  intro C
  induction C with
  | nil => intro pre n _ _ _ _ _ _; rfl
  | cons c C' ih =>
    intro pre n hseg hsegP hval hadj hinc hpre
    have hsegT : ∀ s, Chunk.seg s ∈ C' → '§' ∉ s :=
      fun s hs => hseg s (List.mem_cons_of_mem c hs)
    have hsegPT : ∀ s, Chunk.seg s ∈ C' → ¬ occursIn protTag s :=
      fun s hs => hsegP s (List.mem_cons_of_mem c hs)
    have hvalT : ∀ j v, Chunk.hole j v ∈ C' → '§' ∉ v :=
      fun j v hjv => hval j v (List.mem_cons_of_mem c hjv)
    cases c with
    | seg s =>
      have hadjT : noAdjSegs C' = true := by
        rw [noAdjSegs, Bool.and_eq_true] at hadj
        exact hadj.2
      have hincT : holesInc n C' := hinc
      have hpre' : '§' ∉ pre ++ s := by
        intro hm
        rcases List.mem_append.mp hm with hm | hm
        · exact hpre hm
        · exact hseg s (List.mem_cons_self _ _) hm
      show List.foldl _ (pre ++ (s ++ render C')) (phsOf C') = pre ++ (s ++ flat C')
      rw [← List.append_assoc, ← List.append_assoc]
      exact ih (pre ++ s) n hsegT hsegPT hvalT hadjT hincT hpre'
    | hole i m =>
      have hadjT : noAdjSegs C' = true := hadj
      rcases hinc with ⟨hni, hincT⟩
      have hmS : '§' ∉ m := hval i m (List.mem_cons_self _ _)
      have hneT : ∀ j v, Chunk.hole j v ∈ C' → j ≠ i := by
        intro j v hjv
        have := holesInc_lt hincT j v hjv
        omega
      have hrepl : replaceAll (placeholder i) m (pre ++ (placeholder i ++ render C'))
          = (pre ++ m) ++ render C' := by
        have hsf : splitFirst (placeholder i) ((pre ++ placeholder i) ++ render C')
            = some (pre, render C') :=
          splitFirst_exact ⟨phBody i, placeholder_cons i⟩ pre (render C') hpre
        have hnocc : ¬ occursIn (placeholder i) (render C') :=
          not_occursIn_render hsegT hsegPT hadjT hneT
        have hsf2 : splitFirst (placeholder i) (pre ++ (placeholder i ++ render C'))
            = some (pre, render C') := by
          rw [← List.append_assoc]
          exact hsf
        have h1 := @replaceAll_single (placeholder i) m
          (pre ++ (placeholder i ++ render C')) pre (render C')
          (by rw [placeholder_cons]; exact List.cons_ne_nil _ _) hsf2 hnocc
        rw [h1]
      show List.foldl _ (pre ++ (placeholder i ++ render C'))
          ((placeholder i, m) :: phsOf C') = pre ++ (m ++ flat C')
      rw [List.foldl_cons]
      show List.foldl _ (replaceAll (placeholder i) m
        (pre ++ (placeholder i ++ render C'))) (phsOf C') = _
      rw [hrepl, ← List.append_assoc]
      exact ih (pre ++ m) i hsegT hsegPT hvalT hadjT hincT (by
        intro hm
        rcases List.mem_append.mp hm with hm | hm
        · exact hpre hm
        · exact hmS hm)

theorem phsOf_nil_render {C : List Chunk} (h : phsOf C = []) : render C = flat C := by
  induction C with
  | nil => rfl
  | cons c C' ih =>
    cases c with
    | seg s =>
      rw [phsOf] at h
      rw [render, flat, ih h]
    | hole j v =>
      rw [phsOf] at h
      cases h

theorem render_ne_nil_of_phs {C : List Chunk} (h : phsOf C ≠ []) : render C ≠ [] := by
  induction C with
  | nil => exact absurd rfl h
  | cons c C' ih =>
    cases c with
    | seg s =>
      rw [phsOf] at h
      rw [render]
      intro he
      rcases List.append_eq_nil.mp he with ⟨_, h2⟩
      exact ih h h2
    | hole j v =>
      rw [render, placeholder_cons]
      intro he
      simp at he

theorem protect_text_single (M : Matcher) (text : Str) (ht : text ≠ []) :
    protect_text [M] text
      = (render (chunksGo M (text.length + 1) 0 text),
        phsOf (chunksGo M (text.length + 1) 0 text)) := by
  rcases reSubGo_eq M (text.length + 1) 0 text with ⟨h1, h2⟩
  rw [protect_text, if_neg (by simp [List.isEmpty_iff, ht])]
  simp only [protectGo, List.append_nil]
  rw [h1, h2]

theorem protect_roundtrip_aux (M : Matcher) (text : Str) (h1 : '§' ∉ text)
    (h2 : ¬ occursIn protTag text) :
    restore_text (protect_text [M] text).1 (protect_text [M] text).2 = text := by
  by_cases ht : text = []
  · subst ht
    rfl
  · rw [protect_text_single M text ht]
    have hflat : flat (chunksGo M (text.length + 1) 0 text) = text :=
      chunksGo_flat M _ 0 text
    have hseg : ∀ s, Chunk.seg s ∈ chunksGo M (text.length + 1) 0 text → '§' ∉ s := by
      intro s hs hm
      rcases chunksGo_seg_sub M _ 0 text s hs with ⟨x, y, hxy⟩
      exact h1 (by
        rw [hxy]
        exact List.mem_append_left _ (List.mem_append_right _ hm))
    have hsegP : ∀ s, Chunk.seg s ∈ chunksGo M (text.length + 1) 0 text →
        ¬ occursIn protTag s := by
      rintro s hs ⟨a, b, hab⟩
      rcases chunksGo_seg_sub M _ 0 text s hs with ⟨x, y, hxy⟩
      refine h2 ⟨x ++ a, b ++ y, ?_⟩
      rw [hxy, hab]
      simp [List.append_assoc]
    have hval : ∀ j v, Chunk.hole j v ∈ chunksGo M (text.length + 1) 0 text →
        '§' ∉ v := by
      intro j v hv hm
      rcases chunksGo_val_sub M _ 0 text j v hv with ⟨x, y, hxy⟩
      exact h1 (by
        rw [hxy]
        exact List.mem_append_left _ (List.mem_append_right _ hm))
    have hadj := chunksGo_adj M (text.length + 1) 0 text
    have hinc := chunksGo_inc M (text.length + 1) 0 text
    by_cases hph : phsOf (chunksGo M (text.length + 1) 0 text) = []
    · rw [restore_text, if_pos (Or.inr hph), phsOf_nil_render hph, hflat]
    · have hrne : render (chunksGo M (text.length + 1) 0 text) ≠ [] :=
        render_ne_nil_of_phs hph
      rw [restore_text, if_neg (by
        rintro (h | h)
        · exact hrne h
        · exact hph h)]
      have hmain := restore_fold (chunksGo M (text.length + 1) 0 text) [] 0
        hseg hsegP hval hadj hinc (by simp)
      rw [List.nil_append, List.nil_append] at hmain
      rw [hmain, hflat]

theorem reSubGo_keys (M : Matcher) : ∀ (fuel ctr : Nat) (s : Str),
    ∃ n, ((reSubGo M fuel ctr s).2.1).map Prod.fst
        = (List.range' (ctr + 1) n).map placeholder ∧
      (reSubGo M fuel ctr s).2.2 = ctr + n := by
  intro fuel
  induction fuel with
  | zero => intro ctr s; exact ⟨0, rfl, rfl⟩
  | succ f ih =>
    intro ctr s
    cases hf : M.find s with
    | none =>
      refine ⟨0, ?_, ?_⟩
      · show ((reSubGo M (f + 1) ctr s).2.1).map Prod.fst = []
        rw [reSubGo]
        simp only [hf]
        rfl
      · show (reSubGo M (f + 1) ctr s).2.2 = ctr + 0
        rw [reSubGo]
        simp only [hf]
        omega
    | some p =>
      rcases p with ⟨a, m, b⟩
      rcases ih (ctr + 1) b with ⟨n', hk, hc⟩
      refine ⟨n' + 1, ?_, ?_⟩
      · have hred : (reSubGo M (f + 1) ctr s).2.1
            = (placeholder (ctr + 1), m) :: (reSubGo M f (ctr + 1) b).2.1 := by
          rw [reSubGo]
          simp only [hf]
        rw [hred, List.map_cons, hk, List.range'_succ, List.map_cons]
      · have hred : (reSubGo M (f + 1) ctr s).2.2
            = (reSubGo M f (ctr + 1) b).2.2 := by
          rw [reSubGo]
          simp only [hf]
        rw [hred, hc]
        omega

theorem protectGo_keys : ∀ (ms : List Matcher) (ctr : Nat) (s : Str),
    ∃ n, ((protectGo ctr ms s).2.1).map Prod.fst
        = (List.range' (ctr + 1) n).map placeholder ∧
      (protectGo ctr ms s).2.2 = ctr + n := by
  intro ms
  induction ms with
  | nil => intro ctr s; exact ⟨0, rfl, rfl⟩
  | cons M rest ih =>
    intro ctr s
    rcases reSubGo_keys M (s.length + 1) ctr s with ⟨n1, hk1, hc1⟩
    rcases ih (reSubGo M (s.length + 1) ctr s).2.2
      (reSubGo M (s.length + 1) ctr s).1 with ⟨n2, hk2, hc2⟩
    rw [hc1] at hk2
    refine ⟨n1 + n2, ?_, ?_⟩
    · show ((reSubGo M (s.length + 1) ctr s).2.1
          ++ (protectGo (reSubGo M (s.length + 1) ctr s).2.2 rest
            (reSubGo M (s.length + 1) ctr s).1).2.1).map Prod.fst = _
      rw [List.map_append, hk1, hc1, hk2, ← List.map_append]
      congr 1
      have hra := List.range'_append (ctr + 1) n1 n2 1
      rw [one_mul] at hra
      rw [show ctr + n1 + 1 = ctr + 1 + n1 from by omega, hra, Nat.add_comm n2 n1]
    · show (protectGo (reSubGo M (s.length + 1) ctr s).2.2 rest
          (reSubGo M (s.length + 1) ctr s).1).2.2 = ctr + (n1 + n2)
      rw [hc2, hc1]
      omega

theorem protect_keys_nodup (ms : List Matcher) (text : Str) :
    (((protect_text ms text).2).map Prod.fst).Nodup := by
  rw [protect_text]
  split
  · exact List.nodup_nil
  · rcases protectGo_keys ms 0 text with ⟨n, hk, _⟩
    show (((protectGo 0 ms text).2.1).map Prod.fst).Nodup
    rw [hk]
    exact List.Nodup.map (fun a b hab => placeholder_inj hab) (List.nodup_range' 1 n)

/-- The first match of `\x7b[^\x7d]*\x7d`-style bracket patterns: from the
first opening bracket to the first closing bracket after it. -/
def findBr (o c : Char) (s : Str) : Option (Str × Str × Str) :=
  match splitFirst [o] s with
  | none => none
  | some (a, rest) =>
    match splitFirst [c] rest with
    | none => none
    | some (m1, b) => some (a, o :: (m1 ++ [c]), b)

theorem findBr_sound (o c : Char) : ∀ (s a m b : Str),
    findBr o c s = some (a, m, b) → s = a ++ m ++ b ∧ m ≠ [] := by
  intro s a m b h
  rw [findBr] at h
  cases h1 : splitFirst [o] s with
  | none => rw [h1] at h; cases h
  | some p =>
    rcases p with ⟨a1, rest⟩
    simp only [h1] at h
    cases h2 : splitFirst [c] rest with
    | none => rw [h2] at h; cases h
    | some q =>
      rcases q with ⟨m1, b1⟩
      simp only [h2, Option.some.injEq, Prod.mk.injEq] at h
      rcases h with ⟨ha, hm, hb⟩
      subst ha
      subst hb
      have hs1 := splitFirst_sound h1
      have hs2 := splitFirst_sound h2
      constructor
      · rw [hs1, hs2, ← hm]
        simp [List.append_assoc]
      · rw [← hm]
        exact List.cons_ne_nil _ _

/-- The `curly_braces` pattern `\x7b[^\x7d]*\x7d`. -/
def curlyM : Matcher := ⟨findBr '{' '}', findBr_sound '{' '}'⟩

/-- The `square_brackets` pattern `\[[^\]]*\]`. -/
def squareM : Matcher := ⟨findBr '[' ']', findBr_sound '[' ']'⟩

/-- C2 (amended): for a single enabled pattern and a text free of the `§`
delimiter and of the literal tag `PROTECTED_`, `restore_text` inverts
`protect_text`; and for every pattern list the placeholder keys generated in
one `protect_text` call are pairwise distinct. -/
theorem protect_restore_spec :
    (∀ (M : Matcher) (text : Str), '§' ∉ text → ¬ occursIn protTag text →
      restore_text (protect_text [M] text).1 (protect_text [M] text).2 = text) ∧
    ∀ (ms : List Matcher) (text : Str),
      (((protect_text ms text).2).map Prod.fst).Nodup :=
  ⟨protect_roundtrip_aux, protect_keys_nodup⟩

theorem protect_restore_spec_witness :
    ('§' ∉ "go {x} now".data ∧ ¬ occursIn protTag "go {x} now".data) ∧
    restore_text (protect_text [curlyM] "go {x} now".data).1
      (protect_text [curlyM] "go {x} now".data).2 = "go {x} now".data :=
  ⟨⟨by decide, by decide⟩,
    protect_restore_spec.1 curlyM "go {x} now".data (by decide) (by decide)⟩

/-- C2 counterexample: with the two bracket patterns both enabled, the text
`[{a}] \x7b[b]\x7d` (which contains no `§` at all, hence no placeholder-like
substring) does not survive a protect/restore round trip — in either pattern
order, a nested match swallows an earlier placeholder and the single
restore pass never re-expands it. -/
theorem protect_restore_broken :
    '§' ∉ "[{a}] {[b]}".data ∧
    restore_text (protect_text [curlyM, squareM] "[{a}] {[b]}".data).1
        (protect_text [curlyM, squareM] "[{a}] {[b]}".data).2
      ≠ "[{a}] {[b]}".data ∧
    restore_text (protect_text [squareM, curlyM] "[{a}] {[b]}".data).1
        (protect_text [squareM, curlyM] "[{a}] {[b]}".data).2
      ≠ "[{a}] {[b]}".data :=
  ⟨by decide, by decide, by decide⟩

end TextTR
